import Mathlib

/-!
Verification of the TESTRis grid & body-matching engine.

This file gives a shallow embedding, in Lean 4, of the engine found in the
Go sources (`geom.go`, `body.go`, `main.go`): geometry primitives, the
`Game` state (occupancy matrix, sorted locked-piece list, score), the
lock/unlock pair, movement legality (`canMove`), gravity compaction
(`compactGrid`), the body-template matcher, the cascade resolver
(`joinAndScorePieces`) and the bomb landing branch of
`handleActivePieceLanded`.  Machine integers of the source are modelled by
`Int` (grid coordinates and angles stay far from any overflow boundary, so
no wrap-around modelling is needed).  `log.Fatalf` calls and slice-index
panics are modelled by `Option`-valued operations returning `none`.
Go pointer identity of pieces is modelled by an `id` field; pointer
comparison becomes structural equality, which agrees with `id` comparison
on states whose locked pieces carry pairwise distinct ids.
-/

/-- `type Pos struct { x, y int }` — position in the grid (geom.go). -/
structure Pos where
  x : Int
  y : Int
deriving DecidableEq, Repr

/-- `type Size struct { w, h int }` — dimensions of a piece (geom.go). -/
structure Size where
  w : Int
  h : Int
deriving DecidableEq, Repr

/-- `func angleDegEq(ang1, ang2 int) bool { return (ang1 - ang2) % 360 == 0 }`
(geom.go).  Go's `%` is truncated remainder, `Int.tmod`. -/
def angleDegEq (ang1 ang2 : Int) : Bool :=
  (ang1 - ang2).tmod 360 == 0

/-- `func rotatePos(pos Pos, angleDeg int) Pos` (geom.go): switch on
`(angleDeg + 720) % 360` with Go's truncated `%`. -/
def rotatePos (pos : Pos) (angleDeg : Int) : Pos :=
  let d := (angleDeg + 720).tmod 360
  if d = 90 then ⟨-pos.y, pos.x⟩
  else if d = 180 then ⟨-pos.x, -pos.y⟩
  else if d = 270 then ⟨pos.y, -pos.x⟩
  else pos

/-- `func rotateSize(size Size, angleDeg int) Size` (geom.go). -/
def rotateSize (size : Size) (angleDeg : Int) : Size :=
  let d := (angleDeg + 720).tmod 360
  if d = 90 ∨ d = 270 then ⟨size.h, size.w⟩ else size

/-- `func addPos(left Pos, right Pos) Pos` (geom.go). -/
def addPos (left right : Pos) : Pos :=
  ⟨left.x + right.x, left.y + right.y⟩

/-- `func subPos(left Pos, right Pos) Pos` (geom.go). -/
def subPos (left right : Pos) : Pos :=
  ⟨left.x - right.x, left.y - right.y⟩

/-- `func isWithinBounds(pos Pos, size Size, boundsMin, boundsMax Pos) bool`
(geom.go). -/
def isWithinBounds (pos : Pos) (size : Size) (boundsMin boundsMax : Pos) : Bool :=
  pos.x + size.w ≤ boundsMax.x && boundsMin.x ≤ pos.x &&
  pos.y + size.h ≤ boundsMax.y && boundsMin.y ≤ pos.y

/-- `func isOverlap(pos1 Pos, size1 Size, pos2 Pos, size2 Size) bool`
(geom.go): half-open rectangle intersection. -/
def isOverlap (pos1 : Pos) (size1 : Size) (pos2 : Pos) (size2 : Size) : Bool :=
  pos1.x < pos2.x + size2.w && pos2.x < pos1.x + size1.w &&
  pos1.y < pos2.y + size2.h && pos2.y < pos1.y + size1.h

/-- The spec's rotation table, applied to the input angle normalized
modulo 360 in the mathematical (Euclidean) sense, negative inputs
included.  Modelled from the spec's words for comparison with the
code's `rotatePos`. -/
def specRotateTable (pos : Pos) (angleDeg : Int) : Pos :=
  let d := angleDeg % 360
  if d = 90 then ⟨-pos.y, pos.x⟩
  else if d = 180 then ⟨-pos.x, -pos.y⟩
  else if d = 270 then ⟨pos.y, -pos.x⟩
  else pos

/-- `type Piece struct` (main.go): rotation, size, type tag and grid
position.  The `image` field is rendering-only and omitted.  The extra
`id` field models Go pointer identity (two distinct allocations are
distinct pieces even when their game fields coincide). -/
structure Piece where
  id : Nat
  currentRotation : Int
  size : Size
  pieceType : String
  pos : Pos
deriving DecidableEq, Repr

/-- `func (piece *Piece) isBomb() bool` (main.go). -/
def Piece.isBomb (piece : Piece) : Bool :=
  piece.pieceType == "Bomb"

/-- `func (piece *Piece) isColliding(pos Pos, size Size) bool` (geom.go
line 61).  Note the source CROSSES the two sizes: the candidate `size`
is added to the locked piece's position and the locked piece's UNROTATED
`piece.size` is added to the candidate position (`pos.x < piece.pos.x +
size.w && piece.pos.x < pos.x + piece.size.w`, same on y) — this is the
standard overlap test only when the two sizes coincide. -/
def Piece.isColliding (piece : Piece) (pos : Pos) (size : Size) : Bool :=
  pos.x < piece.pos.x + size.w && piece.pos.x < pos.x + piece.size.w &&
  pos.y < piece.pos.y + size.h && piece.pos.y < pos.y + piece.size.h

/-- `gridSize = Size{18, 18}` (main.go). -/
def gridSize : Size := ⟨18, 18⟩

/-- The grid-relevant game state (main.go `type Game struct`): the
occupancy matrix (`grid [][]*Piece`, modelled as a cell-indexed map),
the sorted locked-piece list, and the score.  Rendering, input and
timing fields are out of the engine's scope. -/
structure Game where
  grid : Pos → Option Piece
  lockedPieces : List Piece
  score : Int

/-- Rotated footprint of a piece: the half-open cell rectangle
`[pos, pos + rotateSize(size, currentRotation))`, the set of cells
written by `changePieceInGrid`. -/
def inFootprint (piece : Piece) (c : Pos) : Prop :=
  piece.pos.x ≤ c.x ∧ c.x < piece.pos.x + (rotateSize piece.size piece.currentRotation).w ∧
  piece.pos.y ≤ c.y ∧ c.y < piece.pos.y + (rotateSize piece.size piece.currentRotation).h

instance (piece : Piece) (c : Pos) : Decidable (inFootprint piece c) := by
  unfold inFootprint; infer_instance

/-- `func (g *Game) changePieceInGrid(piece *Piece, add bool)` (main.go):
writes (or clears) the piece reference in every cell of the rotated
footprint; the double loop over that rectangle is modelled as a
pointwise functional update. -/
def changePieceInGrid (g : Game) (piece : Piece) (add : Bool) : Game :=
  { g with grid := fun c =>
      if inFootprint piece c then (if add then some piece else none) else g.grid c }

/-- Ordering key used by `lockPiece`/`unlockPiece` (main.go): the
predicate `piece.pos.y < l[i].pos.y || (piece.pos.y == l[i].pos.y &&
piece.pos.x <= l[i].pos.x)` handed to `sort.Search`. -/
def keyLe (p q : Piece) : Bool :=
  p.pos.y < q.pos.y || (p.pos.y == q.pos.y && p.pos.x ≤ q.pos.x)

/-- Go's `sort.Search(n, f)` binary search loop (sort package):
`i, j := 0, n; for i < j { h := (i+j)/2; if !f(h) { i = h+1 } else { j = h } }; return i`. -/
def sortSearchAux (f : Nat → Bool) (i j : Nat) : Nat :=
  if h : i < j then
    let m := (i + j) / 2
    if f m then sortSearchAux f i m else sortSearchAux f (m + 1) j
  else i
termination_by j - i
decreasing_by
  · omega
  · have : m < j := by omega
    omega

/-- `sort.Search(n, f)` (Go sort package). -/
def sortSearch (n : Nat) (f : Nat → Bool) : Nat :=
  sortSearchAux f 0 n

/-- The search predicate of `lockPiece`/`unlockPiece` over the locked
list: in Go `f(i)` reads `g.lockedPieces[i]`; indices `≥ len` are never
evaluated by `sort.Search`, so their value here (`true`) is a free
modelling choice. -/
def lockedSearchPred (l : List Piece) (piece : Piece) (i : Nat) : Bool :=
  match l[i]? with
  | some q => keyLe piece q
  | none => true

/-- The index computed by `sort.Search(len(g.lockedPieces), ...)` in
`lockPiece`/`unlockPiece` (main.go). -/
def lockedIdx (l : List Piece) (piece : Piece) : Nat :=
  sortSearch l.length (lockedSearchPred l piece)

/-- The sorted-list insertion performed by `lockPiece` (main.go lines
748-750): append a slot, shift the tail right from `idx`, place the
piece at `idx`. -/
def insertLocked (l : List Piece) (piece : Piece) : List Piece :=
  l.take (lockedIdx l piece) ++ piece :: l.drop (lockedIdx l piece)

/-- The sorted-list removal performed by `unlockPiece` (main.go line
770): `append(l[:idx], l[idx+1:]...)`. -/
def removeLocked (l : List Piece) (piece : Piece) : List Piece :=
  l.take (lockedIdx l piece) ++ l.drop (lockedIdx l piece + 1)

/-- `func (g *Game) lockPiece(piece *Piece)` (main.go): binary-search the
insertion index, `log.Fatalf` (modelled as `none`) when the piece is
already at that index, insert, then add the occupancy references. -/
def lockPiece (g : Game) (piece : Piece) : Option Game :=
  if g.lockedPieces[lockedIdx g.lockedPieces piece]? = some piece then
    none
  else
    some (changePieceInGrid { g with lockedPieces := insertLocked g.lockedPieces piece }
      piece true)

/-- `func (g *Game) unlockPiece(lockedPiece *Piece)` (main.go):
binary-search the piece's index, `log.Fatalf` (modelled as `none`) when
it is not found there, remove it, then clear the occupancy references. -/
def unlockPiece (g : Game) (lockedPiece : Piece) : Option Game :=
  if g.lockedPieces[lockedIdx g.lockedPieces lockedPiece]? ≠ some lockedPiece then
    none
  else
    some (changePieceInGrid { g with lockedPieces := removeLocked g.lockedPieces lockedPiece }
      lockedPiece false)

/-- `func (g *Game) canMove(piece *Piece, dx, dy int) bool` (main.go). -/
def canMove (g : Game) (piece : Piece) (dx dy : Int) : Bool :=
  let newPos : Pos := ⟨piece.pos.x + dx, piece.pos.y + dy⟩
  let size := rotateSize piece.size piece.currentRotation
  if !isWithinBounds newPos size ⟨1, 1⟩ ⟨gridSize.w - 1, gridSize.h - 1⟩ then
    false
  else
    g.lockedPieces.all fun q => !q.isColliding newPos size

/-- `type BodyPiece struct` (body.go): relative position, relative
rotation and required piece type of one slot of a body template. -/
structure BodyPiece where
  pos : Pos
  rotation : Int
  pieceType : String
deriving DecidableEq, Repr

/-- `type Body struct` (body.go).  The derived `pieceTypeToIdx` index is
not stored: it maps a type to exactly the indices of the slots of that
type in declaration order, so the candidate enumeration it supports is
recovered below by filtering `bodyPieces` directly. -/
structure Body where
  name : String
  score : Int
  bodyPieces : List BodyPiece
deriving DecidableEq, Repr

/-- The target grid cell computed for a template slot `bp` by
`matchBodyPieceAtLockedPiece` (body.go lines 107-109): the slot position
relative to the body CS origin, rotated by the derived body rotation and
anchored at the locked piece. -/
def slotCell (lockedPiece : Piece) (bodyCsOrigin : Pos) (bodyCsRotation : Int)
    (bp : BodyPiece) : Pos :=
  addPos lockedPiece.pos (rotatePos (subPos bp.pos bodyCsOrigin) bodyCsRotation)

/-- The inner loop of `matchBodyPieceAtLockedPiece` (body.go lines
106-137): check every template slot against the grid, failing fast;
`none` models the Go `return nil`. -/
def matchSlots (g : Game) (lockedPiece : Piece) (bodyCsOrigin : Pos) (bodyCsRotation : Int) :
    List BodyPiece → Option (List Piece)
  | [] => some []
  | bp :: rest =>
    if !isOverlap (slotCell lockedPiece bodyCsOrigin bodyCsRotation bp) ⟨1, 1⟩ ⟨0, 0⟩ gridSize then
      none
    else
      match g.grid (slotCell lockedPiece bodyCsOrigin bodyCsRotation bp) with
      | none => none
      | some piece =>
        if piece.pieceType ≠ bp.pieceType then none
        else if piece.pos ≠ slotCell lockedPiece bodyCsOrigin bodyCsRotation bp then none
        else if !angleDegEq piece.currentRotation (bp.rotation - bodyCsRotation) then none
        else (matchSlots g lockedPiece bodyCsOrigin bodyCsRotation rest).map (piece :: ·)

/-- `func (body *Body) matchBodyPieceAtLockedPiece(grid, bodyPiece, lockedPiece)`
(body.go): fix the body CS at the anchor slot and derive its rotation
from the anchor slot's rotation minus the locked piece's rotation. -/
def matchBodyPieceAtLockedPiece (g : Game) (body : Body) (bodyPiece : BodyPiece)
    (lockedPiece : Piece) : Option (List Piece) :=
  matchSlots g lockedPiece bodyPiece.pos (bodyPiece.rotation - lockedPiece.currentRotation)
    body.bodyPieces

/-- The slots enumerated via `body.pieceTypeToIdx[t]` (body.go `init`):
the slots of type `t` in declaration order.  The map lookup's `!ok`
case corresponds exactly to this list being empty. -/
def candidateSlots (body : Body) (t : String) : List BodyPiece :=
  body.bodyPieces.filter fun bp => bp.pieceType == t

/-- The anchor loop of `matchAtLockedPiece` (body.go lines 85-91):
return the first candidate anchoring whose match list is non-empty. -/
def matchFirst (g : Game) (body : Body) (lockedPiece : Piece) :
    List BodyPiece → Option (List Piece)
  | [] => none
  | s :: rest =>
    match matchBodyPieceAtLockedPiece g body s lockedPiece with
    | some l => if 0 < l.length then some l else matchFirst g body lockedPiece rest
    | none => matchFirst g body lockedPiece rest

/-- `func (body *Body) matchAtLockedPiece(grid, lockedPiece)` (body.go). -/
def matchAtLockedPiece (g : Game) (body : Body) (lockedPiece : Piece) : Option (List Piece) :=
  matchFirst g body lockedPiece (candidateSlots body lockedPiece.pieceType)

/-- `genericSize := allPieces[0].size` (main.go): every catalog piece has
size 1×1. -/
def genericSize : Size := ⟨1, 1⟩

/-- Body "Fellow" from `allBodies` (main.go). -/
def fellowBody : Body :=
  ⟨"Fellow", 1000,
    [⟨⟨0, 0⟩, 0, "Head"⟩, ⟨⟨0, genericSize.h⟩, 0, "Torso"⟩,
     ⟨⟨0, 2 * genericSize.h⟩, 0, "Leg"⟩]⟩

/-- Body "Asshead" from `allBodies` (main.go). -/
def assheadBody : Body :=
  ⟨"Asshead", 500, [⟨⟨0, 0⟩, 0, "Head"⟩, ⟨⟨0, genericSize.h⟩, 0, "Leg"⟩]⟩

/-- Body "Right broken" from `allBodies` (main.go). -/
def rightBrokenBody : Body :=
  ⟨"Right broken", 3000,
    [⟨⟨0, 0⟩, 90, "Head"⟩, ⟨⟨genericSize.h, 0⟩, 0, "RightBrkTorso"⟩,
     ⟨⟨genericSize.h, genericSize.h⟩, 0, "Leg"⟩]⟩

/-- Body "Left broken" from `allBodies` (main.go). -/
def leftBrokenBody : Body :=
  ⟨"Left broken", 3000,
    [⟨⟨0, 0⟩, 0, "LeftBrkTorso"⟩, ⟨⟨genericSize.h, 0⟩, 270, "Head"⟩,
     ⟨⟨0, genericSize.h⟩, 0, "Leg"⟩]⟩

/-- `allBodies` (main.go init). -/
def allBodies : List Body :=
  [fellowBody, assheadBody, rightBrokenBody, leftBrokenBody]

/-- Unfolding of `isWithinBounds` into inequalities. -/
theorem isWithinBounds_iff (pos : Pos) (size : Size) (bmin bmax : Pos) :
    isWithinBounds pos size bmin bmax = true ↔
      pos.x + size.w ≤ bmax.x ∧ bmin.x ≤ pos.x ∧
      pos.y + size.h ≤ bmax.y ∧ bmin.y ≤ pos.y := by
  simp [isWithinBounds, and_assoc]

/-- A successful `canMove` implies the bounds check passed. -/
theorem canMove_bounds {g : Game} {piece : Piece} {dx dy : Int}
    (h : canMove g piece dx dy = true) :
    isWithinBounds ⟨piece.pos.x + dx, piece.pos.y + dy⟩
      (rotateSize piece.size piece.currentRotation)
      ⟨1, 1⟩ ⟨gridSize.w - 1, gridSize.h - 1⟩ = true := by
  unfold canMove at h
  by_cases hb : isWithinBounds ⟨piece.pos.x + dx, piece.pos.y + dy⟩
      (rotateSize piece.size piece.currentRotation)
      ⟨1, 1⟩ ⟨gridSize.w - 1, gridSize.h - 1⟩ = true
  · exact hb
  · simp only [Bool.not_eq_true] at hb
    simp [hb] at h

/-- A successful `canMove` implies every locked piece passed the
collision test. -/
theorem canMove_noCollision {g : Game} {piece : Piece} {dx dy : Int}
    (h : canMove g piece dx dy = true) :
    ∀ q ∈ g.lockedPieces,
      q.isColliding ⟨piece.pos.x + dx, piece.pos.y + dy⟩
        (rotateSize piece.size piece.currentRotation) = false := by
  unfold canMove at h
  by_cases hb : isWithinBounds ⟨piece.pos.x + dx, piece.pos.y + dy⟩
      (rotateSize piece.size piece.currentRotation)
      ⟨1, 1⟩ ⟨gridSize.w - 1, gridSize.h - 1⟩ = true
  · simp only [hb, Bool.not_true, Bool.false_eq_true, if_false, List.all_eq_true] at h
    intro q hq
    have := h q hq
    simpa using this
  · simp only [Bool.not_eq_true] at hb
    simp [hb] at h

/-- The `for g.canMove(piece, 0, dy+1) { dy++ }` loop of `compactGrid`
(main.go): returns the final value of `dy`.  Termination: each
successful `canMove` forces `pos.y + dy + 1 + h ≤ 17`, so `dy` is
bounded above. -/
def findDy (g : Game) (piece : Piece) (dy : Int) : Int :=
  if h : canMove g piece 0 (dy + 1) = true then findDy g piece (dy + 1) else dy
termination_by
  (gridSize.h - 1 - (rotateSize piece.size piece.currentRotation).h - (piece.pos.y + dy)).toNat
decreasing_by
  have hb := canMove_bounds h
  rw [isWithinBounds_iff] at hb
  simp only [] at hb
  omega

/-- The body of `compactGrid`'s index loop (main.go lines 847-865),
indices processed from `n-1` down to `0`; the argument `i+1` processes
index `i`.  The current (possibly already mutated) locked list is read
at each index, as in the source. -/
def compactLoop (g : Game) (fallen : List Piece) : Nat → Option (Game × List Piece)
  | 0 => some (g, fallen)
  | i + 1 =>
    match g.lockedPieces[i]? with
    | none => none
    | some piece =>
      let size := rotateSize piece.size piece.currentRotation
      let dy := findDy g piece (size.h - 1)
      if size.h ≤ dy then
        match unlockPiece g piece with
        | none => none
        | some g1 =>
          match lockPiece g1 { piece with pos := ⟨piece.pos.x, piece.pos.y + dy⟩ } with
          | none => none
          | some g2 =>
            compactLoop g2 (fallen ++ [{ piece with pos := ⟨piece.pos.x, piece.pos.y + dy⟩ }]) i
      else compactLoop g fallen i

/-- `func (g *Game) compactGrid() []*Piece` (main.go): gravity pass over
the locked pieces, bottom-to-top, returning the pieces that fell. -/
def compactGrid (g : Game) : Option (Game × List Piece) :=
  compactLoop g [] g.lockedPieces.length

/-- `func (g *Game) removePieces(positions []Pos)` (main.go): unlock the
piece referenced by each position; a `nil` cell would make `unlockPiece`
dereference a nil pointer, modelled by `none`. -/
def removePieces (g : Game) : List Pos → Option Game
  | [] => some g
  | pos :: rest =>
    match g.grid pos with
    | none => none
    | some piece =>
      match unlockPiece g piece with
      | none => none
      | some g1 => removePieces g1 rest

/-- The body-catalog loop inside `joinAndScorePieces` (main.go lines
815-823): try every body at the piece; each match adds the body's score,
removes the matched positions and bumps `joinedCnt` (returned here). -/
def matchBodies (g : Game) (piece : Piece) : List Body → Option (Game × Nat)
  | [] => some (g, 0)
  | body :: rest =>
    match matchAtLockedPiece g body piece with
    | some matched =>
      match removePieces { g with score := g.score + body.score } (matched.map Piece.pos) with
      | none => none
      | some g1 => (matchBodies g1 piece rest).map fun p => (p.1, p.2 + 1)
    | none => matchBodies g piece rest

/-- The work-queue loop of `joinAndScorePieces` (main.go lines 810-825).
The source's `if piece != nil` test is vacuous: the queue is seeded with
the landed piece and refilled from `compactGrid`, which never stores
nil entries. -/
def processQueue (g : Game) : List Piece → Option (Game × Nat)
  | [] => some (g, 0)
  | piece :: rest =>
    match matchBodies g piece allBodies with
    | none => none
    | some (g1, c1) => (processQueue g1 rest).map fun p => (p.1, c1 + p.2)

/-- `func (g *Game) joinAndScorePieces(pieces []*Piece)` (main.go): one
pass over the queue, then, when at least one match happened, compact and
recurse on the fallen pieces.  The source guard `if pieces != nil`
before the recursion is always true (`compactGrid` returns a non-nil,
possibly empty, slice), so the recursion is unconditional.  The `fuel`
argument makes the recursion structural; sufficient fuel is proved to
make the result fuel-independent. -/
def joinAndScorePieces (g : Game) (pieces : List Piece) : Nat → Option Game
  | 0 => none
  | fuel + 1 =>
    match processQueue g pieces with
    | none => none
    | some (g1, cnt) =>
      if 0 < cnt then
        match compactGrid g1 with
        | none => none
        | some (g2, fallen) => joinAndScorePieces g2 fallen fuel
      else some g1

/-- The cell scan of the bomb branch of `handleActivePieceLanded`
(main.go lines 719-724): for `i` from `0` while `i < size.w`, unlock the
piece referenced at the cell right of `below` by `i`, when any. -/
def bombLoop (g : Game) (below : Pos) : Nat → Int → Option Game
  | 0, _ => some g
  | n + 1, i =>
    match g.grid ⟨below.x + i, below.y⟩ with
    | some piece =>
      match unlockPiece g piece with
      | none => none
      | some g1 => bombLoop g1 below n (i + 1)
    | none => bombLoop g below n (i + 1)

/-- `func (g *Game) handleActivePieceLanded()` (main.go), restricted to
the grid-relevant state: a bomb destroys the pieces below (when the cell
below is within the playable bounds) and is itself discarded; any other
piece is locked and fed to the cascade resolver.  The subsequent
`spawnNewPiece` call touches only the active/next pieces and the spawn
statistics, never the grid, the locked list or the score. -/
def handleActivePieceLanded (g : Game) (activePiece : Piece) (fuel : Nat) : Option Game :=
  if activePiece.isBomb then
    let below := addPos activePiece.pos ⟨0, 1⟩
    if isWithinBounds below ⟨1, 1⟩ ⟨1, 1⟩ ⟨gridSize.w - 1, gridSize.h - 1⟩ then
      bombLoop g below activePiece.size.w.toNat 0
    else some g
  else
    match lockPiece g activePiece with
    | none => none
    | some g1 => joinAndScorePieces g1 [activePiece] fuel

/-- On angles not below `-720`, the code's truncated-modulo switch value
agrees with mathematical normalization modulo 360. -/
theorem rotatePos_eq_specRotateTable (pos : Pos) (angleDeg : Int) (h : -720 ≤ angleDeg) :
    rotatePos pos angleDeg = specRotateTable pos angleDeg := by
  have h0 : (0 : Int) ≤ angleDeg + 720 := by omega
  have ht : (angleDeg + 720).tmod 360 = (angleDeg + 720) % 360 :=
    Int.tmod_eq_emod h0 (by norm_num)
  have he : (angleDeg + 720) % 360 = angleDeg % 360 := by
    have : angleDeg + 720 = angleDeg + 360 * 2 := by ring
    rw [this, Int.add_mul_emod_self_left]
  unfold rotatePos specRotateTable
  rw [ht, he]

/-- C9 counterexample: `-810` is a multiple of 90, but the code leaves
the point fixed while the modulo-360 table entry (270°) is `(y, -x)`. -/
theorem rotatePos_neg810_ne_table :
    (-810 : Int) % 90 = 0 ∧
    rotatePos ⟨1, 2⟩ (-810) = ⟨1, 2⟩ ∧
    specRotateTable ⟨1, 2⟩ (-810) = ⟨2, -1⟩ ∧
    rotatePos ⟨1, 2⟩ (-810) ≠ specRotateTable ⟨1, 2⟩ (-810) := by
  decide

/-- C9 (amended): for every integer point and every multiple of 90 not
below `-720`, `rotatePos` returns the table entry for the angle
normalized modulo 360 (identity at 0°, `(-y,x)` at 90°, `(-x,-y)` at
180°, `(y,-x)` at 270°). -/
theorem rotatePos_matches_table (pos : Pos) (angleDeg : Int)
    (_hdvd : (90 : Int) ∣ angleDeg) (h : -720 ≤ angleDeg) :
    rotatePos pos angleDeg = specRotateTable pos angleDeg :=
  rotatePos_eq_specRotateTable pos angleDeg h

/-- Witness for C9's amended theorem at a concrete negative angle. -/
theorem rotatePos_matches_table_witness :
    ((90 : Int) ∣ -270) ∧ (-720 : Int) ≤ -270 ∧
    rotatePos ⟨1, 0⟩ (-270) = specRotateTable ⟨1, 0⟩ (-270) :=
  ⟨by decide, by decide, rotatePos_matches_table ⟨1, 0⟩ (-270) (by decide) (by decide)⟩

/-- The 1×1 Head locked at (5,0) with rotation 90 (C1 scenario). -/
def headC1 : Piece := ⟨0, 90, ⟨1, 1⟩, "Head", ⟨5, 0⟩⟩

/-- The 1×1 Torso locked at (6,0) with rotation 90 (C1 scenario). -/
def torsoC1 : Piece := ⟨1, 90, ⟨1, 1⟩, "Torso", ⟨6, 0⟩⟩

/-- The 1×1 Leg locked at (7,0) with rotation 90 (C1 scenario). -/
def legC1 : Piece := ⟨2, 90, ⟨1, 1⟩, "Leg", ⟨7, 0⟩⟩

/-- The grid whose only locked pieces are the three pieces of the C1
scenario, with consistent occupancy. -/
def gameC1 : Game :=
  ⟨fun c =>
    if c = ⟨5, 0⟩ then some headC1
    else if c = ⟨6, 0⟩ then some torsoC1
    else if c = ⟨7, 0⟩ then some legC1
    else none,
   [headC1, torsoC1, legC1], 0⟩

/-- C1: with the "Fellow" template (Head/Torso/Leg stacked vertically at
rotation 0) and the three pieces laid out horizontally at rotation 90,
matching anchored at the Head returns exactly those three pieces: the
anchor's own rotation derives the applied template rotation. -/
theorem fellow_matches_rotated_row :
    matchAtLockedPiece gameC1 fellowBody headC1 = some [headC1, torsoC1, legC1] := by
  decide

/-- Cell membership in a half-open rectangle `[pos, pos + size)`. -/
def inRect (pos : Pos) (size : Size) (c : Pos) : Prop :=
  pos.x ≤ c.x ∧ c.x < pos.x + size.w ∧ pos.y ≤ c.y ∧ c.y < pos.y + size.h

instance (pos : Pos) (size : Size) (c : Pos) : Decidable (inRect pos size c) := by
  unfold inRect; infer_instance

/-- A cell of the playable region of the 18×18 board as `canMove`
bounds it: the grid minus a one-cell border on all four sides. -/
def playableCell (c : Pos) : Prop :=
  1 ≤ c.x ∧ c.x < gridSize.w - 1 ∧ 1 ≤ c.y ∧ c.y < gridSize.h - 1

instance (c : Pos) : Decidable (playableCell c) := by
  unfold playableCell; infer_instance

/-- Modelled from the spec: the claim's playable region, which excludes
a one-cell border on the left, right and bottom ONLY (the top row stays
playable).  For comparison with the bounds actually enforced by
`canMove`. -/
def specPlayableLRB (pos : Pos) (size : Size) : Bool :=
  1 ≤ pos.x && pos.x + size.w ≤ gridSize.w - 1 &&
  0 ≤ pos.y && pos.y + size.h ≤ gridSize.h - 1

/-- One-dimensional half-open interval overlap is equivalent to sharing
a point, for positive lengths. -/
theorem interval_overlap_iff (a1 w1 a2 w2 : Int) (h1 : 0 < w1) (h2 : 0 < w2) :
    (a1 < a2 + w2 ∧ a2 < a1 + w1) ↔
      ∃ x, a1 ≤ x ∧ x < a1 + w1 ∧ a2 ≤ x ∧ x < a2 + w2 := by
  constructor
  · rintro ⟨hl, hr⟩
    rcases le_total a1 a2 with hc | hc
    · exact ⟨a2, by omega, by omega, by omega, by omega⟩
    · exact ⟨a1, by omega, by omega, by omega, by omega⟩
  · rintro ⟨x, hx1, hx2, hx3, hx4⟩
    omega

/-- Half-open rectangle containment in the playable region is the
`canMove` bounds test, for positive sizes. -/
theorem withinBounds_iff_cells (pos : Pos) (size : Size)
    (hw : 0 < size.w) (hh : 0 < size.h) :
    isWithinBounds pos size ⟨1, 1⟩ ⟨gridSize.w - 1, gridSize.h - 1⟩ = true ↔
      ∀ c, inRect pos size c → playableCell c := by
  rw [isWithinBounds_iff]
  simp only [inRect, playableCell, gridSize]
  constructor
  · rintro ⟨h1, h2, h3, h4⟩ c ⟨hc1, hc2, hc3, hc4⟩
    refine ⟨by omega, by omega, by omega, by omega⟩
  · intro h
    have h1 := h ⟨pos.x, pos.y⟩ (by refine ⟨?_, ?_, ?_, ?_⟩ <;> (dsimp only; omega))
    have h2 := h ⟨pos.x + size.w - 1, pos.y + size.h - 1⟩
      (by refine ⟨?_, ?_, ?_, ?_⟩ <;> (dsimp only; omega))
    dsimp only at h1 h2
    rcases h1 with ⟨a1, a2, a3, a4⟩
    rcases h2 with ⟨b1, b2, b3, b4⟩
    refine ⟨by omega, by omega, by omega, by omega⟩

/-- `Piece.isColliding` is equivalent to sharing a cell between the
rectangle at the candidate position carrying the locked piece's
UNROTATED size and the rectangle at the locked piece's position carrying
the candidate size — the code's crossed pairing — for positive sizes. -/
theorem isColliding_iff_cells (q : Piece) (pos : Pos) (size : Size)
    (hw : 0 < size.w) (hh : 0 < size.h)
    (hqw : 0 < q.size.w) (hqh : 0 < q.size.h) :
    q.isColliding pos size = true ↔
      ∃ c, inRect pos q.size c ∧ inRect q.pos size c := by
  unfold Piece.isColliding
  simp only [Bool.and_eq_true, decide_eq_true_eq]
  constructor
  · rintro ⟨⟨⟨hx1, hx2⟩, hy1⟩, hy2⟩
    have hx := (interval_overlap_iff pos.x q.size.w q.pos.x size.w hqw hw).1 ⟨hx1, hx2⟩
    have hy := (interval_overlap_iff pos.y q.size.h q.pos.y size.h hqh hh).1 ⟨hy1, hy2⟩
    rcases hx with ⟨x, px1, px2, px3, px4⟩
    rcases hy with ⟨y, py1, py2, py3, py4⟩
    exact ⟨⟨x, y⟩, ⟨px1, px2, py1, py2⟩, ⟨px3, px4, py3, py4⟩⟩
  · rintro ⟨c, ⟨c1, c2, c3, c4⟩, ⟨d1, d2, d3, d4⟩⟩
    exact ⟨⟨⟨by omega, by omega⟩, by omega⟩, by omega⟩

/-- Empty game: empty occupancy, no locked pieces, score 0 (the state
built by `NewGame`). -/
def emptyGame : Game := ⟨fun _ => none, [], 0⟩

/-- A 1×1 Head at (5,1), used against claim C5. -/
def pieceC5a : Piece := ⟨0, 0, ⟨1, 1⟩, "Head", ⟨5, 1⟩⟩

/-- A 1×2 Torso locked at (5,5) with rotation 90: its rotated footprint
is the two cells (5,5) and (6,5). -/
def qC5b : Piece := ⟨1, 90, ⟨1, 2⟩, "Torso", ⟨5, 5⟩⟩

/-- Game whose only locked piece is `qC5b`, with consistent occupancy. -/
def gameC5b : Game :=
  ⟨fun c => if inFootprint qC5b c then some qC5b else none, [qC5b], 0⟩

/-- A 1×1 Head at (6,4), one cell above the rotated part of `qC5b`'s
footprint. -/
def pieceC5b : Piece := ⟨2, 0, ⟨1, 1⟩, "Head", ⟨6, 4⟩⟩

/-- A 3×1 Torso at (1,4); moving down one row, its footprint is the
cells (1,5), (2,5), (3,5). -/
def pieceC5c : Piece := ⟨3, 0, ⟨3, 1⟩, "Torso", ⟨1, 4⟩⟩

/-- A 1×1 Head locked at (2,5), under the middle of `pieceC5c`'s
candidate footprint. -/
def qC5c : Piece := ⟨4, 0, ⟨1, 1⟩, "Head", ⟨2, 5⟩⟩

/-- Game whose only locked piece is `qC5c`, with consistent occupancy. -/
def gameC5c : Game :=
  ⟨fun c => if inFootprint qC5c c then some qC5c else none, [qC5c], 0⟩

/-- C5 counterexample.  First instance: moving a 1×1 piece up to (5,0)
stays inside the claim's playable region (border on left/right/bottom
only) and collides with nothing, yet `canMove` is false — the code also
excludes the top row.  Second instance: the candidate cell (6,5) lies in
the rotated footprint of the locked piece `qC5b`, so the claim requires
false, yet `canMove` is true — the code's crossed overlap test pairs the
candidate position (6,5) with `qC5b`'s unrotated 1×2 size and `qC5b`'s
position (5,5) with the candidate's 1×1 size, and `6 < 5 + 1` fails.
Third instance, no rotation involved at all: a 3×1 candidate moved to
(1,5) covers the locked 1×1 piece at (2,5), yet `canMove` is true —
the crossed test `piece.pos.x < pos.x + piece.size.w` becomes
`2 < 1 + 1` and fails, so the overlap goes unreported. -/
theorem canMove_spec_counterexample :
    (specPlayableLRB ⟨5, 0⟩ ⟨1, 1⟩ = true ∧ emptyGame.lockedPieces = [] ∧
      canMove emptyGame pieceC5a 0 (-1) = false) ∧
    (inRect ⟨6, 5⟩ ⟨1, 1⟩ ⟨6, 5⟩ ∧ inFootprint qC5b ⟨6, 5⟩ ∧ qC5b ∈ gameC5b.lockedPieces ∧
      canMove gameC5b pieceC5b 0 1 = true) ∧
    (inRect ⟨1, 5⟩ ⟨3, 1⟩ ⟨2, 5⟩ ∧ inFootprint qC5c ⟨2, 5⟩ ∧ qC5c ∈ gameC5c.lockedPieces ∧
      canMove gameC5c pieceC5c 0 1 = true) := by
  refine ⟨⟨by decide, rfl, by decide⟩, ⟨by decide, by decide, by decide, by decide⟩,
    ⟨by decide, by decide, by decide, by decide⟩⟩

/-- C5 (amended): for pieces with positive sizes, `canMove` is true iff
the candidate rotated footprint lies cell-wise inside the playable
region — the grid minus a one-cell border on ALL FOUR sides — and, for
every locked piece, the code's CROSSED overlap test passes: the
rectangle at the candidate position carrying the locked piece's
unrotated size shares no cell with the rectangle at the locked piece's
position carrying the candidate's rotated size (geom.go adds each size
to the other rectangle's position; for the game's 1×1 pieces this
coincides with rotated-footprint disjointness).  The embedding is a
pure function: neither the piece nor the grid is touched. -/
theorem canMove_iff_playable_disjoint (g : Game) (piece : Piece) (dx dy : Int)
    (hw : 0 < (rotateSize piece.size piece.currentRotation).w)
    (hh : 0 < (rotateSize piece.size piece.currentRotation).h)
    (hlocked : ∀ q ∈ g.lockedPieces, 0 < q.size.w ∧ 0 < q.size.h) :
    canMove g piece dx dy = true ↔
      ((∀ c, inRect ⟨piece.pos.x + dx, piece.pos.y + dy⟩
          (rotateSize piece.size piece.currentRotation) c → playableCell c) ∧
       ∀ q ∈ g.lockedPieces,
         ¬ ∃ c, inRect ⟨piece.pos.x + dx, piece.pos.y + dy⟩ q.size c ∧
             inRect q.pos (rotateSize piece.size piece.currentRotation) c) := by
  have hcells := withinBounds_iff_cells ⟨piece.pos.x + dx, piece.pos.y + dy⟩
    (rotateSize piece.size piece.currentRotation) hw hh
  by_cases hb : isWithinBounds ⟨piece.pos.x + dx, piece.pos.y + dy⟩
      (rotateSize piece.size piece.currentRotation)
      ⟨1, 1⟩ ⟨gridSize.w - 1, gridSize.h - 1⟩ = true
  · simp only [canMove, hb, Bool.not_true, Bool.false_eq_true, if_false, List.all_eq_true]
    constructor
    · intro h
      refine ⟨hcells.1 hb, ?_⟩
      intro q hq hex
      have hcol := h q hq
      rw [Bool.not_eq_true'] at hcol
      have := (isColliding_iff_cells q ⟨piece.pos.x + dx, piece.pos.y + dy⟩
        (rotateSize piece.size piece.currentRotation) hw hh
        (hlocked q hq).1 (hlocked q hq).2).2 hex
      rw [this] at hcol
      cases hcol
    · rintro ⟨-, h⟩ q hq
      rw [Bool.not_eq_true']
      by_cases hcol : q.isColliding ⟨piece.pos.x + dx, piece.pos.y + dy⟩
          (rotateSize piece.size piece.currentRotation) = true
      · exact absurd ((isColliding_iff_cells q _ _ hw hh
          (hlocked q hq).1 (hlocked q hq).2).1 hcol) (h q hq)
      · exact Bool.not_eq_true _ ▸ (Bool.eq_false_iff.mpr hcol)
  · simp only [Bool.not_eq_true] at hb
    have hfalse : canMove g piece dx dy = false := by
      unfold canMove
      simp [hb]
    rw [hfalse]
    simp only [Bool.false_eq_true, false_iff]
    rintro ⟨h, -⟩
    have hw2 := hcells.2 h
    rw [hb] at hw2
    cases hw2

/-- Witness for the amended C5 theorem at a concrete input. -/
theorem canMove_iff_playable_disjoint_witness :
    canMove emptyGame pieceC5a 0 1 = true ↔
      ((∀ c, inRect ⟨pieceC5a.pos.x + 0, pieceC5a.pos.y + 1⟩
          (rotateSize pieceC5a.size pieceC5a.currentRotation) c → playableCell c) ∧
       ∀ q ∈ emptyGame.lockedPieces,
         ¬ ∃ c, inRect ⟨pieceC5a.pos.x + 0, pieceC5a.pos.y + 1⟩ q.size c ∧
             inRect q.pos (rotateSize pieceC5a.size pieceC5a.currentRotation) c) :=
  canMove_iff_playable_disjoint emptyGame pieceC5a 0 1 (by decide) (by decide)
    (by intro q hq; cases hq)

/-- All five per-slot checks of `matchBodyPieceAtLockedPiece`: the
target cell is inside the grid and holds a piece of the required type
whose recorded position is that cell and whose rotation equals the
slot's expected rotation modulo 360. -/
def slotOk (g : Game) (lockedPiece : Piece) (bodyCsOrigin : Pos) (bodyCsRotation : Int)
    (bp : BodyPiece) : Prop :=
  isOverlap (slotCell lockedPiece bodyCsOrigin bodyCsRotation bp) ⟨1, 1⟩ ⟨0, 0⟩ gridSize = true ∧
  ∃ piece, g.grid (slotCell lockedPiece bodyCsOrigin bodyCsRotation bp) = some piece ∧
    piece.pieceType = bp.pieceType ∧
    piece.pos = slotCell lockedPiece bodyCsOrigin bodyCsRotation bp ∧
    angleDegEq piece.currentRotation (bp.rotation - bodyCsRotation) = true

/-- `matchSlots` succeeds exactly when every slot passes all its checks. -/
theorem matchSlots_isSome_iff (g : Game) (lockedPiece : Piece) (o : Pos) (r : Int)
    (slots : List BodyPiece) :
    (∃ l, matchSlots g lockedPiece o r slots = some l) ↔
      ∀ bp ∈ slots, slotOk g lockedPiece o r bp := by
  induction slots with
  | nil => simp [matchSlots]
  | cons bp rest ih =>
    constructor
    · rintro ⟨l, hl⟩
      simp only [matchSlots] at hl
      split at hl
      · cases hl
      · rename_i hov
        split at hl
        · cases hl
        · rename_i piece hcell
          split at hl
          · cases hl
          · rename_i ht
            split at hl
            · cases hl
            · rename_i hp
              split at hl
              · cases hl
              · rename_i hr
                simp at hov hr
                simp only [ne_eq, not_not] at ht hp
                have hrest : ∃ l', matchSlots g lockedPiece o r rest = some l' := by
                  cases hm : matchSlots g lockedPiece o r rest with
                  | none => rw [hm] at hl; cases hl
                  | some l' => exact ⟨l', rfl⟩
                intro bq hbq
                rcases List.mem_cons.mp hbq with rfl | hbq
                · exact ⟨hov, piece, hcell, ht, hp, hr⟩
                · exact ih.1 hrest bq hbq
    · intro h
      rcases h bp (by simp) with ⟨hov, piece, hcell, ht, hp, hr⟩
      rcases ih.2 (fun bq hbq => h bq (by simp [hbq])) with ⟨l', hl'⟩
      exact ⟨piece :: l', by simp [matchSlots, hov, hcell, ht, hp, hr, hl']⟩

/-- A successful `matchSlots` returns one occupying piece per slot. -/
theorem matchSlots_length (g : Game) (lockedPiece : Piece) (o : Pos) (r : Int) :
    ∀ (slots : List BodyPiece) (l : List Piece),
      matchSlots g lockedPiece o r slots = some l → l.length = slots.length := by
  intro slots
  induction slots with
  | nil => intro l hl; simp [matchSlots] at hl; simp [← hl]
  | cons bp rest ih =>
    intro l hl
    simp only [matchSlots] at hl
    split at hl
    · cases hl
    · split at hl
      · cases hl
      · rename_i piece hcell
        split at hl
        · cases hl
        · split at hl
          · cases hl
          · split at hl
            · cases hl
            · cases hm : matchSlots g lockedPiece o r rest with
              | none => rw [hm] at hl; cases hl
              | some l' =>
                rw [hm] at hl
                simp at hl
                simp [← hl, ih l' hm]

/-- A successful `matchFirst` list comes from a successful anchoring, so
it has one piece per template slot. -/
theorem matchFirst_length (g : Game) (body : Body) (lockedPiece : Piece) :
    ∀ (slots : List BodyPiece) (l : List Piece),
      matchFirst g body lockedPiece slots = some l → l.length = body.bodyPieces.length := by
  intro slots
  induction slots with
  | nil => intro l hl; simp [matchFirst] at hl
  | cons s rest ih =>
    intro l hl
    simp only [matchFirst] at hl
    cases hm : matchBodyPieceAtLockedPiece g body s lockedPiece with
    | none => rw [hm] at hl; exact ih l hl
    | some l0 =>
      rw [hm] at hl
      dsimp only at hl
      by_cases hlen : 0 < l0.length
      · rw [if_pos hlen] at hl
        cases hl
        exact matchSlots_length g lockedPiece s.pos (s.rotation - lockedPiece.currentRotation)
          body.bodyPieces l hm
      · rw [if_neg hlen] at hl
        exact ih l hl

/-- C2: (a) a single failing slot — target cell outside the grid, empty,
wrong type, off recorded position, or rotation not equal modulo 360 to
the slot's expected rotation — makes that anchoring of
`matchBodyPieceAtLockedPiece` return none; (b) every successful
`matchAtLockedPiece` result has exactly one occupying piece per
template slot, never a proper subset. -/
theorem match_requires_every_slot :
    (∀ (g : Game) (body : Body) (bodyPiece : BodyPiece) (lockedPiece : Piece),
      (∃ bp ∈ body.bodyPieces,
        ¬ slotOk g lockedPiece bodyPiece.pos
            (bodyPiece.rotation - lockedPiece.currentRotation) bp) →
      matchBodyPieceAtLockedPiece g body bodyPiece lockedPiece = none) ∧
    (∀ (g : Game) (body : Body) (lockedPiece : Piece) (l : List Piece),
      matchAtLockedPiece g body lockedPiece = some l →
      l.length = body.bodyPieces.length) := by
  constructor
  · rintro g body bodyPiece lockedPiece ⟨bp, hbp, hnot⟩
    cases hm : matchBodyPieceAtLockedPiece g body bodyPiece lockedPiece with
    | none => rfl
    | some l =>
      exfalso
      exact hnot ((matchSlots_isSome_iff g lockedPiece bodyPiece.pos
        (bodyPiece.rotation - lockedPiece.currentRotation) body.bodyPieces).1 ⟨l, hm⟩ bp hbp)
  · intro g body lockedPiece l hl
    exact matchFirst_length g body lockedPiece (candidateSlots body lockedPiece.pieceType) l hl

/-- Witness for C2 at a concrete input: on the empty grid the Fellow
template's first slot sees an empty cell, so the anchoring fails; and a
concrete successful match returns one piece per slot. -/
theorem match_requires_every_slot_witness :
    matchBodyPieceAtLockedPiece emptyGame fellowBody ⟨⟨0, 0⟩, 0, "Head"⟩ pieceC5a = none ∧
    (matchAtLockedPiece gameC1 fellowBody headC1 = some [headC1, torsoC1, legC1] →
      [headC1, torsoC1, legC1].length = fellowBody.bodyPieces.length) := by
  constructor
  · refine match_requires_every_slot.1 emptyGame fellowBody ⟨⟨0, 0⟩, 0, "Head"⟩ pieceC5a
      ⟨⟨⟨0, 0⟩, 0, "Head"⟩, by simp [fellowBody], ?_⟩
    rintro ⟨-, piece, hcell, -⟩
    simp [emptyGame] at hcell
  · exact match_requires_every_slot.2 gameC1 fellowBody headC1 [headC1, torsoC1, legC1]

/-- C10: when the cell below a landing bomb is outside the playable
bounds, the landing handler leaves the whole grid state — occupancy,
locked list and score — untouched, and performs no removal. -/
theorem bomb_on_floor_noop (g : Game) (activePiece : Piece) (fuel : Nat)
    (hbomb : activePiece.isBomb = true)
    (hout : isWithinBounds (addPos activePiece.pos ⟨0, 1⟩) ⟨1, 1⟩ ⟨1, 1⟩
      ⟨gridSize.w - 1, gridSize.h - 1⟩ = false) :
    handleActivePieceLanded g activePiece fuel = some g := by
  unfold handleActivePieceLanded
  rw [hbomb]
  simp [hout]

/-- Witness for C10: a bomb resting on the lowest playable row (row 16)
of the empty game changes nothing. -/
theorem bomb_on_floor_noop_witness :
    handleActivePieceLanded emptyGame ⟨0, 0, ⟨1, 1⟩, "Bomb", ⟨5, 16⟩⟩ 5 = some emptyGame :=
  bomb_on_floor_noop emptyGame ⟨0, 0, ⟨1, 1⟩, "Bomb", ⟨5, 16⟩⟩ 5 (by decide) (by decide)

/-- `keyLe` unfolded to linear arithmetic. -/
theorem keyLe_iff (p q : Piece) :
    keyLe p q = true ↔
      p.pos.y < q.pos.y ∨ (p.pos.y = q.pos.y ∧ p.pos.x ≤ q.pos.x) := by
  simp [keyLe]

/-- The `(y, x)` ordering is total. -/
theorem keyLe_total (p q : Piece) : keyLe p q = true ∨ keyLe q p = true := by
  rw [keyLe_iff, keyLe_iff]; omega

/-- The `(y, x)` ordering is transitive. -/
theorem keyLe_trans {p q r : Piece} (h1 : keyLe p q = true) (h2 : keyLe q r = true) :
    keyLe p r = true := by
  rw [keyLe_iff] at h1 h2 ⊢; omega

/-- `sortSearchAux` stays within the searched interval. -/
theorem sortSearchAux_bounds (f : Nat → Bool) :
    ∀ (n i j : Nat), j - i ≤ n → i ≤ j → i ≤ sortSearchAux f i j ∧ sortSearchAux f i j ≤ j := by
  intro n
  induction n with
  | zero =>
    intro i j hn hij
    have : i = j := by omega
    subst this
    rw [sortSearchAux]
    simp
  | succ n ih =>
    intro i j hn hij
    rw [sortSearchAux]
    by_cases hlt : i < j
    · rw [dif_pos hlt]
      by_cases hf : f ((i + j) / 2) = true
      · rw [if_pos hf]
        have := ih i ((i + j) / 2) (by omega) (by omega)
        omega
      · rw [if_neg hf]
        have := ih ((i + j) / 2 + 1) j (by omega) (by omega)
        omega
    · rw [dif_neg hlt]
      omega

/-- Correctness of Go's `sort.Search` under its documented contract:
when `f` is monotone (false on a prefix, true from some point on), the
result separates the false prefix from the true suffix. -/
theorem sortSearchAux_correct (f : Nat → Bool)
    (hmono : ∀ a b, a ≤ b → f a = true → f b = true) :
    ∀ (n i j : Nat), j - i ≤ n → i ≤ j →
      (∀ k, k < i → f k = false) → (∀ k, j ≤ k → f k = true) →
      (∀ k, k < sortSearchAux f i j → f k = false) ∧
      (∀ k, sortSearchAux f i j ≤ k → f k = true) := by
  intro n
  induction n with
  | zero =>
    intro i j hn hij hpre hpost
    have : i = j := by omega
    subst this
    rw [sortSearchAux]
    simp only [lt_irrefl, dif_neg, not_false_iff]
    exact ⟨hpre, hpost⟩
  | succ n ih =>
    intro i j hn hij hpre hpost
    rw [sortSearchAux]
    by_cases hlt : i < j
    · rw [dif_pos hlt]
      by_cases hf : f ((i + j) / 2) = true
      · rw [if_pos hf]
        refine ih i ((i + j) / 2) (by omega) (by omega) hpre ?_
        intro k hk
        exact hmono _ _ hk hf
      · rw [if_neg hf]
        refine ih ((i + j) / 2 + 1) j (by omega) (by omega) ?_ hpost
        intro k hk
        cases hfk : f k with
        | false => rfl
        | true =>
          have := hmono k ((i + j) / 2) (by omega) hfk
          rw [this] at hf
          exact absurd rfl hf
    · rw [dif_neg hlt]
      have : i = j := by omega
      subst this
      exact ⟨hpre, hpost⟩

/-- The search predicate of the locked list is monotone whenever the
list is sorted by `keyLe`. -/
theorem lockedSearchPred_mono (l : List Piece) (piece : Piece)
    (hs : l.Pairwise (fun p q => keyLe p q = true)) :
    ∀ a b, a ≤ b → lockedSearchPred l piece a = true → lockedSearchPred l piece b = true := by
  intro a b hab hfa
  unfold lockedSearchPred at hfa ⊢
  cases hb : l[b]? with
  | none => rfl
  | some qb =>
    have hblen : b < l.length := by
      by_contra hc
      rw [List.getElem?_eq_none (by omega)] at hb
      cases hb
    have halen : a < l.length := by omega
    rw [List.getElem?_eq_getElem halen] at hfa
    rw [List.getElem?_eq_getElem hblen] at hb
    cases hb
    by_cases hab2 : a = b
    · subst hab2; exact hfa
    · have hrel := List.pairwise_iff_getElem.mp hs a b halen hblen (by omega)
      exact keyLe_trans hfa hrel

/-- Both separation properties of the insertion index computed by
`lockPiece`/`unlockPiece` on a sorted list. -/
theorem sortSearch_locked (l : List Piece) (piece : Piece)
    (hs : l.Pairwise (fun p q => keyLe p q = true)) :
    sortSearch l.length (lockedSearchPred l piece) ≤ l.length ∧
    (∀ k, k < sortSearch l.length (lockedSearchPred l piece) →
      lockedSearchPred l piece k = false) ∧
    (∀ k, sortSearch l.length (lockedSearchPred l piece) ≤ k →
      lockedSearchPred l piece k = true) := by
  have hb := sortSearchAux_bounds (lockedSearchPred l piece) l.length 0 l.length
    (by omega) (by omega)
  have hc := sortSearchAux_correct (lockedSearchPred l piece)
    (lockedSearchPred_mono l piece hs) l.length 0 l.length (by omega) (by omega)
    (by intro k hk; omega)
    (by intro k hk; unfold lockedSearchPred; rw [List.getElem?_eq_none hk])
  exact ⟨hb.2, hc.1, hc.2⟩


/-- The search predicate evaluated inside the list. -/
theorem lockedSearchPred_lt (l : List Piece) (p : Piece) (k : Nat) (hk : k < l.length) :
    lockedSearchPred l p k = keyLe p l[k] := by
  unfold lockedSearchPred
  rw [List.getElem?_eq_getElem hk]

/-- The separation properties of `lockedIdx` on a sorted list. -/
theorem lockedIdx_spec (l : List Piece) (p : Piece)
    (hs : l.Pairwise (fun a b => keyLe a b = true)) :
    lockedIdx l p ≤ l.length ∧
    (∀ k, (hk : k < l.length) → k < lockedIdx l p → keyLe p l[k] = false) ∧
    (∀ k, (hk : k < l.length) → lockedIdx l p ≤ k → keyLe p l[k] = true) := by
  obtain ⟨hle, hpre, hpost⟩ := sortSearch_locked l p hs
  refine ⟨hle, ?_, ?_⟩
  · intro k hk hlt
    have := hpre k hlt
    rw [lockedSearchPred_lt l p k hk] at this
    exact this
  · intro k hk hge
    have := hpost k hge
    rw [lockedSearchPred_lt l p k hk] at this
    exact this

/-- Elements strictly before the insertion index compare `≤ piece`. -/
theorem take_lockedIdx_keyLe (l : List Piece) (p : Piece)
    (hs : l.Pairwise (fun a b => keyLe a b = true)) :
    ∀ a ∈ l.take (lockedIdx l p), keyLe a p = true := by
  intro a ha
  obtain ⟨i, hi, hget⟩ := List.mem_iff_getElem.mp ha
  rw [List.getElem_take] at hget
  have hi2 : i < lockedIdx l p := by simp at hi; omega
  have hilen : i < l.length := by simp at hi; omega
  have hfalse := (lockedIdx_spec l p hs).2.1 i hilen hi2
  rw [hget] at hfalse
  rcases keyLe_total a p with h | h
  · exact h
  · rw [h] at hfalse; cases hfalse

/-- The piece compares `≤` every element from the insertion index on. -/
theorem drop_lockedIdx_keyLe (l : List Piece) (p : Piece)
    (hs : l.Pairwise (fun a b => keyLe a b = true)) :
    ∀ b ∈ l.drop (lockedIdx l p), keyLe p b = true := by
  intro b hb
  obtain ⟨i, hi, hget⟩ := List.mem_iff_getElem.mp hb
  rw [List.getElem_drop] at hget
  have hilen : lockedIdx l p + i < l.length := by simp at hi; omega
  have htrue := (lockedIdx_spec l p hs).2.2 (lockedIdx l p + i) hilen (by omega)
  rw [hget] at htrue
  exact htrue

/-- `insertLocked` keeps the locked list sorted by `(y, x)`. -/
theorem sorted_insertLocked (l : List Piece) (p : Piece)
    (hs : l.Pairwise (fun a b => keyLe a b = true)) :
    (insertLocked l p).Pairwise (fun a b => keyLe a b = true) := by
  unfold insertLocked
  rw [List.pairwise_append]
  have hsplit : (l.take (lockedIdx l p) ++ l.drop (lockedIdx l p)).Pairwise
      (fun a b => keyLe a b = true) := by
    rw [List.take_append_drop]; exact hs
  refine ⟨hs.sublist (List.take_sublist _ _), ?_, ?_⟩
  · rw [List.pairwise_cons]
    exact ⟨drop_lockedIdx_keyLe l p hs, hs.sublist (List.drop_sublist _ _)⟩
  · intro a ha b hb
    rcases List.mem_cons.mp hb with hbp | hb
    · rw [hbp]
      exact take_lockedIdx_keyLe l p hs a ha
    · exact (List.pairwise_append.mp hsplit).2.2 a ha b hb

/-- `insertLocked` keeps the locked list duplicate-free when the piece
is not already present. -/
theorem nodup_insertLocked (l : List Piece) (p : Piece)
    (hn : l.Nodup) (hp : p ∉ l) : (insertLocked l p).Nodup := by
  unfold insertLocked
  have hperm : (l.take (lockedIdx l p) ++ p :: l.drop (lockedIdx l p)).Perm
      (p :: (l.take (lockedIdx l p) ++ l.drop (lockedIdx l p))) := List.perm_middle
  rw [hperm.nodup_iff, List.take_append_drop, List.nodup_cons]
  exact ⟨hp, hn⟩

/-- `removeLocked` is a sublist of the original locked list. -/
theorem removeLocked_sublist (l : List Piece) (p : Piece) :
    (removeLocked l p).Sublist l := by
  unfold removeLocked
  have h1 : (l.take (lockedIdx l p) ++ l.drop (lockedIdx l p + 1)).Sublist
      (l.take (lockedIdx l p) ++ l.drop (lockedIdx l p)) := by
    by_cases hlen : lockedIdx l p < l.length
    · refine List.Sublist.append (List.Sublist.refl _) ?_
      rw [List.drop_eq_getElem_cons hlen]
      exact List.sublist_cons_self _ _
    · have hd1 : l.drop (lockedIdx l p + 1) = [] := List.drop_eq_nil_of_le (by omega)
      have hd2 : l.drop (lockedIdx l p) = [] := List.drop_eq_nil_of_le (by omega)
      rw [hd1, hd2]
  have h2 : (l.take (lockedIdx l p) ++ l.drop (lockedIdx l p)).Sublist l := by
    rw [List.take_append_drop]
  exact h1.trans h2

/-- Unfolding of a successful `lockPiece`. -/
theorem lockPiece_some {g : Game} {p : Piece} {g' : Game}
    (h : lockPiece g p = some g') :
    g.lockedPieces[lockedIdx g.lockedPieces p]? ≠ some p ∧
      g' = changePieceInGrid { g with lockedPieces := insertLocked g.lockedPieces p } p true := by
  unfold lockPiece at h
  split at h
  · cases h
  · rename_i hne
    cases h
    exact ⟨hne, rfl⟩

/-- Unfolding of a successful `unlockPiece`. -/
theorem unlockPiece_some {g : Game} {p : Piece} {g' : Game}
    (h : unlockPiece g p = some g') :
    g.lockedPieces[lockedIdx g.lockedPieces p]? = some p ∧
      g' = changePieceInGrid { g with lockedPieces := removeLocked g.lockedPieces p } p false := by
  unfold unlockPiece at h
  split at h
  · cases h
  · rename_i hne
    cases h
    rw [not_not] at hne
    exact ⟨hne, rfl⟩

/-- Game states reachable from an empty locked list by `lockPiece` and
`unlockPiece` calls that respect their preconditions: `lockPiece` is
never handed a piece already present, `unlockPiece` only a piece that
is present. -/
inductive ReachableLU : Game → Prop where
  | init (g : Game) (h : g.lockedPieces = []) : ReachableLU g
  | lock (g g' : Game) (p : Piece) (h : ReachableLU g) (hp : p ∉ g.lockedPieces)
      (hs : lockPiece g p = some g') : ReachableLU g'
  | unlock (g g' : Game) (p : Piece) (h : ReachableLU g) (hp : p ∈ g.lockedPieces)
      (hs : unlockPiece g p = some g') : ReachableLU g'

/-- C3: along every sequence of `lockPiece`/`unlockPiece` calls meeting
their preconditions, `lockedPieces` stays sorted ascending by
`(position.y, position.x)` and duplicate-free at every observation
point. -/
theorem locked_list_sorted_nodup (g : Game) (h : ReachableLU g) :
    g.lockedPieces.Pairwise (fun a b => keyLe a b = true) ∧ g.lockedPieces.Nodup := by
  induction h with
  | init g hg => rw [hg]; exact ⟨List.Pairwise.nil, List.nodup_nil⟩
  | lock g g' p hr hp hs ih =>
    obtain ⟨-, rfl⟩ := lockPiece_some hs
    simp only [changePieceInGrid]
    exact ⟨sorted_insertLocked g.lockedPieces p ih.1,
      nodup_insertLocked g.lockedPieces p ih.2 hp⟩
  | unlock g g' p hr hp hs ih =>
    obtain ⟨-, rfl⟩ := unlockPiece_some hs
    simp only [changePieceInGrid]
    exact ⟨ih.1.sublist (removeLocked_sublist g.lockedPieces p),
      ih.2.sublist (removeLocked_sublist g.lockedPieces p)⟩

/-- Witness for C3: a lock/unlock trace from the empty game. -/
theorem locked_list_sorted_nodup_witness :
    emptyGame.lockedPieces.Pairwise (fun a b => keyLe a b = true) ∧
      emptyGame.lockedPieces.Nodup :=
  locked_list_sorted_nodup emptyGame (ReachableLU.init emptyGame rfl)

/-- Rotation never degenerates a positive size. -/
theorem rotateSize_pos {s : Size} (hw : 0 < s.w) (hh : 0 < s.h) (r : Int) :
    0 < (rotateSize s r).w ∧ 0 < (rotateSize s r).h := by
  simp only [rotateSize]
  split <;> exact ⟨by assumption, by assumption⟩

/-- A piece with positive size covers its own anchor cell. -/
theorem pos_mem_footprint (p : Piece) (hw : 0 < p.size.w) (hh : 0 < p.size.h) :
    inFootprint p p.pos := by
  have := rotateSize_pos hw hh p.currentRotation
  exact ⟨le_refl _, by omega, le_refl _, by omega⟩

/-- `keyLe` is reflexive. -/
theorem keyLe_refl (p : Piece) : keyLe p p = true := by
  rw [keyLe_iff]; omega

/-- Mutually `keyLe` pieces share their position. -/
theorem keyLe_antisymm_pos {p q : Piece} (h1 : keyLe p q = true) (h2 : keyLe q p = true) :
    p.pos = q.pos := by
  rw [keyLe_iff] at h1 h2
  have hx : p.pos.x = q.pos.x := by omega
  have hy : p.pos.y = q.pos.y := by omega
  calc p.pos = ⟨p.pos.x, p.pos.y⟩ := rfl
    _ = ⟨q.pos.x, q.pos.y⟩ := by rw [hx, hy]
    _ = q.pos := rfl

/-- Footprint disjointness of two pieces. -/
def footDisjoint (p q : Piece) : Prop :=
  ∀ c, ¬(inFootprint p c ∧ inFootprint q c)

theorem footDisjoint_symm : Symmetric footDisjoint := by
  intro p q h c hc
  exact h c ⟨hc.2, hc.1⟩

/-- The engine's state invariant: the locked list is sorted by `(y,x)`
and duplicate-free, every locked piece has a positive square size (all
catalog pieces are 1×1), every footprint cell references its piece,
uncovered cells are empty, and footprints are pairwise disjoint. -/
def GridInv (g : Game) : Prop :=
  g.lockedPieces.Pairwise (fun a b => keyLe a b = true) ∧
  g.lockedPieces.Nodup ∧
  (∀ p ∈ g.lockedPieces, 0 < p.size.w ∧ 0 < p.size.h ∧ p.size.w = p.size.h) ∧
  (∀ p ∈ g.lockedPieces, ∀ c, inFootprint p c → g.grid c = some p) ∧
  (∀ c, (∀ p ∈ g.lockedPieces, ¬ inFootprint p c) → g.grid c = none) ∧
  g.lockedPieces.Pairwise footDisjoint

/-- Under the invariant a non-empty cell references a locked piece whose
footprint covers the cell. -/
theorem GridInv.grid_some {g : Game} (hInv : GridInv g) {c : Pos} {p : Piece}
    (h : g.grid c = some p) : p ∈ g.lockedPieces ∧ inFootprint p c := by
  obtain ⟨-, -, -, hocc, hemp, -⟩ := hInv
  by_cases hcov : ∀ q ∈ g.lockedPieces, ¬ inFootprint q c
  · rw [hemp c hcov] at h
    cases h
  · push_neg at hcov
    obtain ⟨q, hq, hqc⟩ := hcov
    have := hocc q hq c hqc
    rw [this] at h
    injection h with h2
    exact h2 ▸ ⟨hq, hqc⟩

/-- Under the invariant, distinct locked pieces sit at distinct
positions. -/
theorem GridInv.pos_injective {g : Game} (hInv : GridInv g) {p q : Piece}
    (hp : p ∈ g.lockedPieces) (hq : q ∈ g.lockedPieces) (hne : p ≠ q) :
    p.pos ≠ q.pos := by
  obtain ⟨-, -, hsz, -, -, hdisj⟩ := hInv
  intro heq
  have hdis : footDisjoint p q := List.Pairwise.forall @footDisjoint_symm hdisj hp hq hne
  obtain ⟨hw, hh, -⟩ := hsz p hp
  obtain ⟨hw', hh', -⟩ := hsz q hq
  exact hdis p.pos ⟨pos_mem_footprint p hw hh, heq ▸ pos_mem_footprint q hw' hh'⟩

/-- Under the invariant, the binary search of `unlockPiece` finds every
member of the locked list. -/
theorem GridInv.find_member {g : Game} (hInv : GridInv g) {p : Piece}
    (hp : p ∈ g.lockedPieces) :
    g.lockedPieces[lockedIdx g.lockedPieces p]? = some p := by
  obtain ⟨m, hm, hpm⟩ := List.mem_iff_getElem.mp hp
  have hspec := lockedIdx_spec g.lockedPieces p hInv.1
  have hidxm : lockedIdx g.lockedPieces p ≤ m := by
    by_contra hc
    have := hspec.2.1 m hm (by omega)
    rw [hpm, keyLe_refl] at this
    cases this
  have hidxlen : lockedIdx g.lockedPieces p < g.lockedPieces.length := by omega
  have hkeyp := hspec.2.2 (lockedIdx g.lockedPieces p) hidxlen (le_refl _)
  have hback : keyLe g.lockedPieces[lockedIdx g.lockedPieces p] p = true := by
    rcases eq_or_lt_of_le hidxm with heq | hlt
    · subst heq
      rw [hpm, keyLe_refl]
    · have hsorted := List.pairwise_iff_getElem.mp hInv.1
        (lockedIdx g.lockedPieces p) m hidxlen hm hlt
      rw [hpm] at hsorted
      exact hsorted
  have hgoal : g.lockedPieces[lockedIdx g.lockedPieces p] = p := by
    by_cases hne : g.lockedPieces[lockedIdx g.lockedPieces p] = p
    · exact hne
    · exact absurd (keyLe_antisymm_pos hback hkeyp)
        (hInv.pos_injective (List.getElem_mem hidxlen) hp hne)
  rw [List.getElem?_eq_getElem hidxlen, hgoal]

/-- `unlockPiece` succeeds on every locked piece of an invariant
state. -/
theorem unlockPiece_of_GridInv {g : Game} (hInv : GridInv g) {p : Piece}
    (hp : p ∈ g.lockedPieces) :
    unlockPiece g p =
      some (changePieceInGrid { g with lockedPieces := removeLocked g.lockedPieces p }
        p false) := by
  unfold unlockPiece
  rw [if_neg (by rw [hInv.find_member hp]; simp)]

/-- `lockPiece` succeeds on every piece not yet locked. -/
theorem lockPiece_of_not_mem {g : Game} {p : Piece} (hp : p ∉ g.lockedPieces) :
    lockPiece g p =
      some (changePieceInGrid { g with lockedPieces := insertLocked g.lockedPieces p }
        p true) := by
  unfold lockPiece
  rw [if_neg]
  intro hc
  exact hp (List.getElem?_mem hc)

/-- `insertLocked` is, as a multiset, just consing the piece. -/
theorem insertLocked_perm (l : List Piece) (p : Piece) :
    (insertLocked l p).Perm (p :: l) := by
  unfold insertLocked
  have h := @List.perm_middle _ p (l.take (lockedIdx l p)) (l.drop (lockedIdx l p))
  rw [List.take_append_drop] at h
  exact h

/-- When the piece is found at the searched index, removing it is, as a
multiset, just dropping one occurrence. -/
theorem removeLocked_perm (l : List Piece) (p : Piece)
    (h : l[lockedIdx l p]? = some p) :
    l.Perm (p :: removeLocked l p) := by
  have hlt : lockedIdx l p < l.length := by
    by_contra hc
    rw [List.getElem?_eq_none (by omega)] at h
    cases h
  have hget : l[lockedIdx l p] = p := by
    rw [List.getElem?_eq_getElem hlt] at h
    injection h with h2
  unfold removeLocked
  have hsplit : l = l.take (lockedIdx l p) ++ p :: l.drop (lockedIdx l p + 1) := by
    conv_lhs => rw [← List.take_append_drop (lockedIdx l p) l]
    rw [List.drop_eq_getElem_cons hlt, hget]
  conv_lhs => rw [hsplit]
  exact List.perm_middle

/-- The grid of `changePieceInGrid`, pointwise. -/
theorem changePieceInGrid_grid (g : Game) (p : Piece) (add : Bool) (c : Pos) :
    (changePieceInGrid g p add).grid c =
      if inFootprint p c then (if add then some p else none) else g.grid c := rfl

/-- Full effect of `unlockPiece` on an invariant state: it succeeds,
preserves the invariant, removes exactly the piece from the locked list
and clears exactly its footprint cells; the score is untouched. -/
theorem GridInv_unlock {g : Game} (hInv : GridInv g) {p : Piece}
    (hp : p ∈ g.lockedPieces) :
    ∃ g', unlockPiece g p = some g' ∧ GridInv g' ∧
      g'.lockedPieces = removeLocked g.lockedPieces p ∧
      g.lockedPieces.Perm (p :: g'.lockedPieces) ∧
      g'.score = g.score ∧
      (∀ c, g'.grid c = if inFootprint p c then none else g.grid c) ∧
      (∀ q, q ∈ g'.lockedPieces ↔ q ∈ g.lockedPieces ∧ q ≠ p) := by
  have hperm := removeLocked_perm g.lockedPieces p (hInv.find_member hp)
  have hsub := removeLocked_sublist g.lockedPieces p
  have hpnotin : p ∉ removeLocked g.lockedPieces p := by
    have hnd := hperm.nodup_iff.mp hInv.2.1
    exact (List.nodup_cons.mp hnd).1
  have hmem : ∀ q, q ∈ removeLocked g.lockedPieces p ↔ q ∈ g.lockedPieces ∧ q ≠ p := by
    intro q
    constructor
    · intro hq
      refine ⟨hsub.mem hq, ?_⟩
      rintro rfl
      exact hpnotin hq
    · rintro ⟨hq, hne⟩
      rcases List.mem_cons.mp (hperm.mem_iff.mp hq) with h | h
      · exact absurd h hne
      · exact h
  obtain ⟨hsort, hnd, hsz, hocc, hemp, hdisj⟩ := hInv
  refine ⟨_, unlockPiece_of_GridInv ⟨hsort, hnd, hsz, hocc, hemp, hdisj⟩ hp,
    ⟨hsort.sublist hsub, hnd.sublist hsub, fun q hq => hsz q (hsub.mem hq), ?_, ?_,
      hdisj.sublist hsub⟩,
    rfl, hperm, rfl, fun c => rfl, hmem⟩
  · intro q hq c hc
    have hq2 := (hmem q).mp hq
    show (if inFootprint p c then none else g.grid c) = some q
    rw [if_neg]
    · exact hocc q hq2.1 c hc
    · intro hcp
      exact List.Pairwise.forall @footDisjoint_symm hdisj hq2.1 hp hq2.2 c ⟨hc, hcp⟩
  · intro c hc
    show (if inFootprint p c then none else g.grid c) = none
    by_cases hcp : inFootprint p c
    · rw [if_pos hcp]
    · rw [if_neg hcp]
      refine hemp c ?_
      intro q hq
      by_cases hqp : q = p
      · rw [hqp]; exact hcp
      · exact hc q ((hmem q).mpr ⟨hq, hqp⟩)

/-- Full effect of `lockPiece` on an invariant state, for a fresh piece
with positive square size whose footprint avoids every locked piece: it
succeeds, preserves the invariant, inserts exactly the piece and writes
exactly its footprint cells; the score is untouched. -/
theorem GridInv_lock {g : Game} (hInv : GridInv g) {p : Piece}
    (hw : 0 < p.size.w) (hh : 0 < p.size.h) (hsq : p.size.w = p.size.h)
    (hdisj : ∀ q ∈ g.lockedPieces, footDisjoint p q)
    (hmem : p ∉ g.lockedPieces) :
    ∃ g', lockPiece g p = some g' ∧ GridInv g' ∧
      g'.lockedPieces = insertLocked g.lockedPieces p ∧
      g'.lockedPieces.Perm (p :: g.lockedPieces) ∧
      g'.score = g.score ∧
      (∀ c, g'.grid c = if inFootprint p c then some p else g.grid c) ∧
      (∀ q, q ∈ g'.lockedPieces ↔ q = p ∨ q ∈ g.lockedPieces) := by
  have hperm := insertLocked_perm g.lockedPieces p
  have hmem2 : ∀ q, q ∈ insertLocked g.lockedPieces p ↔ q = p ∨ q ∈ g.lockedPieces := by
    intro q
    rw [hperm.mem_iff, List.mem_cons]
  obtain ⟨hsort, hnd, hsz, hocc, hemp, hdisjl⟩ := hInv
  refine ⟨_, lockPiece_of_not_mem hmem,
    ⟨sorted_insertLocked g.lockedPieces p hsort,
      nodup_insertLocked g.lockedPieces p hnd hmem, ?_, ?_, ?_, ?_⟩,
    rfl, hperm, rfl, fun c => rfl, hmem2⟩
  · intro q hq
    rcases (hmem2 q).mp hq with rfl | hq2
    · exact ⟨hw, hh, hsq⟩
    · exact hsz q hq2
  · intro q hq c hc
    show (if inFootprint p c then some p else g.grid c) = some q
    rcases (hmem2 q).mp hq with rfl | hq2
    · rw [if_pos hc]
    · rw [if_neg]
      · exact hocc q hq2 c hc
      · intro hcp
        exact hdisj q hq2 c ⟨hcp, hc⟩
  · intro c hc
    show (if inFootprint p c then some p else g.grid c) = none
    rw [if_neg]
    · refine hemp c ?_
      intro q hq
      exact hc q ((hmem2 q).mpr (Or.inr hq))
    · exact hc p ((hmem2 p).mpr (Or.inl rfl))
  · show List.Pairwise footDisjoint (insertLocked g.lockedPieces p)
    rw [hperm.pairwise_iff @footDisjoint_symm, List.pairwise_cons]
    exact ⟨hdisj, hdisjl⟩

/-- A piece whose rotated footprint lies inside the playable region
(the grid minus the one-cell wall border enforced by `canMove`). -/
def inPlayable (p : Piece) : Prop :=
  1 ≤ p.pos.x ∧ p.pos.x + (rotateSize p.size p.currentRotation).w ≤ gridSize.w - 1 ∧
  1 ≤ p.pos.y ∧ p.pos.y + (rotateSize p.size p.currentRotation).h ≤ gridSize.h - 1

/-- `q` occupies a cell of the row directly beneath the bomb's
footprint. -/
def occupiesBelow (bomb q : Piece) : Prop :=
  ∃ i : Int, 0 ≤ i ∧ i < bomb.size.w ∧
    inFootprint q ⟨bomb.pos.x + i, bomb.pos.y + 1⟩

/-- Total effect of the bomb's cell scan on an invariant state: it
succeeds, keeps the invariant and the score, removes exactly the locked
pieces covering one of the scanned cells, and introduces no new grid
references. -/
theorem bombLoop_spec (below : Pos) :
    ∀ (n : Nat) (i : Int) (g : Game), GridInv g →
    ∃ g', bombLoop g below n i = some g' ∧ GridInv g' ∧ g'.score = g.score ∧
      (∀ q, q ∈ g'.lockedPieces ↔ q ∈ g.lockedPieces ∧
        ¬ ∃ j : Int, i ≤ j ∧ j < i + n ∧ inFootprint q ⟨below.x + j, below.y⟩) ∧
      (∀ c p, g'.grid c = some p → g.grid c = some p) := by
  intro n
  induction n with
  | zero =>
    intro i g hInv
    refine ⟨g, rfl, hInv, rfl, ?_, fun c p h => h⟩
    intro q
    constructor
    · intro hq
      refine ⟨hq, ?_⟩
      rintro ⟨j, hj1, hj2, -⟩
      omega
    · exact fun hq => hq.1
  | succ n ih =>
    intro i g hInv
    cases hcell : g.grid ⟨below.x + i, below.y⟩ with
    | none =>
      obtain ⟨g', hrun, hInv', hscore', hmem', hgrid'⟩ := ih (i + 1) g hInv
      refine ⟨g', ?_, hInv', hscore', ?_, hgrid'⟩
      · simp only [bombLoop, hcell]
        exact hrun
      · intro q
        rw [hmem' q]
        constructor
        · rintro ⟨hq, hno⟩
          refine ⟨hq, ?_⟩
          rintro ⟨j, hj1, hj2, hfp⟩
          by_cases hji : j = i
          · rw [hji] at hfp
            have := hInv.2.2.2.1 q hq _ hfp
            rw [hcell] at this
            cases this
          · exact hno ⟨j, by omega, by omega, hfp⟩
        · rintro ⟨hq, hno⟩
          refine ⟨hq, ?_⟩
          rintro ⟨j, hj1, hj2, hfp⟩
          exact hno ⟨j, by omega, by omega, hfp⟩
    | some victim =>
      obtain ⟨hvmem, hvfp⟩ := hInv.grid_some hcell
      obtain ⟨g1, hunlock, hInv1, -, -, hscore1, hgrid1, hmem1⟩ := GridInv_unlock hInv hvmem
      obtain ⟨g', hrun, hInv', hscore', hmem', hgrid'⟩ := ih (i + 1) g1 hInv1
      refine ⟨g', ?_, hInv', by rw [hscore', hscore1], ?_, ?_⟩
      · simp only [bombLoop, hcell, hunlock]
        exact hrun
      · intro q
        rw [hmem' q, hmem1 q]
        constructor
        · rintro ⟨⟨hq, hne⟩, hno⟩
          refine ⟨hq, ?_⟩
          rintro ⟨j, hj1, hj2, hfp⟩
          by_cases hji : j = i
          · rw [hji] at hfp
            have := hInv.2.2.2.1 q hq _ hfp
            rw [hcell] at this
            injection this with h2
            exact hne h2.symm
          · exact hno ⟨j, by omega, by omega, hfp⟩
        · rintro ⟨hq, hno⟩
          have hne : q ≠ victim := by
            rintro rfl
            exact hno ⟨i, le_refl _, by omega, hvfp⟩
          refine ⟨⟨hq, hne⟩, ?_⟩
          rintro ⟨j, hj1, hj2, hfp⟩
          exact hno ⟨j, by omega, by omega, hfp⟩
      · intro c p hc
        have := hgrid' c p hc
        rw [hgrid1 c] at this
        by_cases hfp : inFootprint victim c
        · rw [if_pos hfp] at this; cases this
        · rw [if_neg hfp] at this; exact this

/-- C8: a landing bomb is never locked nor written to the occupancy
matrix and never enters matching; exactly the locked pieces occupying
the row directly beneath its footprint are unlocked, and the score is
unchanged. -/
theorem bomb_landing_removes_row (g : Game) (bomb : Piece) (fuel : Nat)
    (hInv : GridInv g)
    (hplay : ∀ q ∈ g.lockedPieces, inPlayable q)
    (htype : bomb.isBomb = true)
    (hsize : bomb.size = ⟨1, 1⟩)
    (hx1 : 1 ≤ bomb.pos.x) (hx2 : bomb.pos.x ≤ gridSize.w - 2)
    (hy1 : 1 ≤ bomb.pos.y) (hy2 : bomb.pos.y ≤ gridSize.h - 2)
    (hfresh : bomb ∉ g.lockedPieces) :
    ∃ g', handleActivePieceLanded g bomb fuel = some g' ∧
      GridInv g' ∧
      g'.score = g.score ∧
      (∀ q, q ∈ g'.lockedPieces ↔ q ∈ g.lockedPieces ∧ ¬ occupiesBelow bomb q) ∧
      bomb ∉ g'.lockedPieces ∧
      (∀ c, g'.grid c ≠ some bomb) := by
  have hgw : gridSize.w = 18 := rfl
  have hgh : gridSize.h = 18 := rfl
  have hw1 : bomb.size.w = 1 := by rw [hsize]
  have hnobomb : ∀ c, g.grid c ≠ some bomb := fun c hc => hfresh (hInv.grid_some hc).1
  have hbelow : addPos bomb.pos ⟨0, 1⟩ = ⟨bomb.pos.x, bomb.pos.y + 1⟩ := by
    simp [addPos]
  have hbranch : handleActivePieceLanded g bomb fuel =
      (if isWithinBounds ⟨bomb.pos.x, bomb.pos.y + 1⟩ ⟨1, 1⟩ ⟨1, 1⟩
          ⟨gridSize.w - 1, gridSize.h - 1⟩ = true
        then bombLoop g ⟨bomb.pos.x, bomb.pos.y + 1⟩ bomb.size.w.toNat 0
        else some g) := by
    unfold handleActivePieceLanded
    rw [htype, hbelow]
    rfl
  rw [hbranch]
  by_cases hguard : isWithinBounds ⟨bomb.pos.x, bomb.pos.y + 1⟩ ⟨1, 1⟩ ⟨1, 1⟩
      ⟨gridSize.w - 1, gridSize.h - 1⟩ = true
  · rw [if_pos hguard]
    obtain ⟨g', hrun, hInv', hscore', hmem', hgrid'⟩ :=
      bombLoop_spec ⟨bomb.pos.x, bomb.pos.y + 1⟩ bomb.size.w.toNat 0 g hInv
    have hcast : (bomb.size.w.toNat : Int) = bomb.size.w := by rw [hw1]; rfl
    refine ⟨g', hrun, hInv', hscore', ?_, ?_, ?_⟩
    · intro q
      rw [hmem' q]
      unfold occupiesBelow
      constructor
      · rintro ⟨hq, hno⟩
        refine ⟨hq, ?_⟩
        rintro ⟨i, hi1, hi2, hfp⟩
        exact hno ⟨i, hi1, by omega, hfp⟩
      · rintro ⟨hq, hno⟩
        refine ⟨hq, ?_⟩
        rintro ⟨j, hj1, hj2, hfp⟩
        exact hno ⟨j, hj1, by omega, hfp⟩
    · intro hq
      exact hfresh ((hmem' bomb).mp hq).1
    · intro c hc
      exact hnobomb c (hgrid' c bomb hc)
  · rw [if_neg hguard]
    rw [isWithinBounds_iff] at hguard
    dsimp only at hguard
    push_neg at hguard
    have hnone : ∀ q ∈ g.lockedPieces, ¬ occupiesBelow bomb q := by
      rintro q hq ⟨i, hi0, hiw, hfp⟩
      have hpl := hplay q hq
      obtain ⟨hqw, hqh, -⟩ := hInv.2.2.1 q hq
      have hrot := rotateSize_pos hqw hqh q.currentRotation
      obtain ⟨-, -, -, hfp4⟩ := hfp
      obtain ⟨-, -, -, hpl4⟩ := hpl
      dsimp only at hfp4
      omega
    refine ⟨g, rfl, hInv, rfl, ?_, hfresh, hnobomb⟩
    intro q
    exact ⟨fun hq => ⟨hq, hnone q hq⟩, fun hq => hq.1⟩

/-- The empty game satisfies the grid invariant. -/
theorem gridInv_emptyGame : GridInv emptyGame :=
  ⟨List.Pairwise.nil, List.nodup_nil, fun p hp => absurd hp (List.not_mem_nil p),
    fun p hp => absurd hp (List.not_mem_nil p), fun _ _ => rfl, List.Pairwise.nil⟩

/-- A 1×1 bomb at (5,5). -/
def bombW : Piece := ⟨0, 0, ⟨1, 1⟩, "Bomb", ⟨5, 5⟩⟩

/-- Witness for C8 at a concrete input. -/
theorem bomb_landing_removes_row_witness :
    ∃ g', handleActivePieceLanded emptyGame bombW 5 = some g' ∧
      GridInv g' ∧
      g'.score = emptyGame.score ∧
      (∀ q, q ∈ g'.lockedPieces ↔ q ∈ emptyGame.lockedPieces ∧ ¬ occupiesBelow bombW q) ∧
      bombW ∉ g'.lockedPieces ∧
      (∀ c, g'.grid c ≠ some bombW) :=
  bomb_landing_removes_row emptyGame bombW 5 gridInv_emptyGame
    (fun q hq => absurd hq (List.not_mem_nil q)) (by decide) rfl
    (by decide) (by decide) (by decide) (by decide)
    (List.not_mem_nil bombW)

/-- `removeLocked` shortens the list by one when the piece is found. -/
theorem removeLocked_length (l : List Piece) (p : Piece)
    (h : l[lockedIdx l p]? = some p) : (removeLocked l p).length + 1 = l.length := by
  have hlen := (removeLocked_perm l p h).length_eq
  simp at hlen
  omega

/-- A successful `unlockPiece` shortens the locked list by one. -/
theorem unlockPiece_length {g : Game} {p : Piece} {g' : Game}
    (h : unlockPiece g p = some g') :
    g'.lockedPieces.length + 1 = g.lockedPieces.length := by
  obtain ⟨hfound, rfl⟩ := unlockPiece_some h
  exact removeLocked_length _ _ hfound

/-- A successful `lockPiece` lengthens the locked list by one. -/
theorem lockPiece_length {g : Game} {p : Piece} {g' : Game}
    (h : lockPiece g p = some g') :
    g'.lockedPieces.length = g.lockedPieces.length + 1 := by
  obtain ⟨-, rfl⟩ := lockPiece_some h
  have hlen := (insertLocked_perm g.lockedPieces p).length_eq
  simp at hlen
  exact hlen

/-- The compaction loop never changes the number of locked pieces:
every move is an unlock/lock pair. -/
theorem compactLoop_length :
    ∀ (n : Nat) (g : Game) (fallen : List Piece) (g' : Game) (fallen' : List Piece),
      compactLoop g fallen n = some (g', fallen') →
      g'.lockedPieces.length = g.lockedPieces.length := by
  intro n
  induction n with
  | zero =>
    intro g fallen g' fallen' h
    simp only [compactLoop] at h
    injection h with h2
    injection h2 with h3 h4
    rw [← h3]
  | succ i ih =>
    intro g fallen g' fallen' h
    simp only [compactLoop] at h
    cases hcell : g.lockedPieces[i]? with
    | none => rw [hcell] at h; cases h
    | some piece =>
      rw [hcell] at h
      dsimp only at h
      split at h
      · cases hun : unlockPiece g piece with
        | none => rw [hun] at h; cases h
        | some g1 =>
          rw [hun] at h
          dsimp only at h
          cases hlk : lockPiece g1
              { piece with pos := ⟨piece.pos.x, piece.pos.y + findDy g piece
                ((rotateSize piece.size piece.currentRotation).h - 1)⟩ } with
          | none => rw [hlk] at h; cases h
          | some g2 =>
            rw [hlk] at h
            have h1 := unlockPiece_length hun
            have h2 := lockPiece_length hlk
            have h3 := ih g2 _ g' fallen' h
            omega
      · exact ih g fallen g' fallen' h

/-- `compactGrid` never changes the number of locked pieces. -/
theorem compactGrid_length {g g' : Game} {fallen : List Piece}
    (h : compactGrid g = some (g', fallen)) :
    g'.lockedPieces.length = g.lockedPieces.length :=
  compactLoop_length g.lockedPieces.length g [] g' fallen h

/-- `removePieces` unlocks one piece per position. -/
theorem removePieces_length :
    ∀ (posList : List Pos) (g g' : Game), removePieces g posList = some g' →
      g'.lockedPieces.length + posList.length = g.lockedPieces.length := by
  intro posList
  induction posList with
  | nil =>
    intro g g' h
    simp only [removePieces] at h
    injection h with h2
    rw [← h2]
    simp
  | cons pos rest ih =>
    intro g g' h
    simp only [removePieces] at h
    cases hcell : g.grid pos with
    | none => rw [hcell] at h; cases h
    | some piece =>
      rw [hcell] at h
      dsimp only at h
      cases hun : unlockPiece g piece with
      | none => rw [hun] at h; cases h
      | some g1 =>
        rw [hun] at h
        have h1 := unlockPiece_length hun
        have h2 := ih g1 g' h
        simp only [List.length_cons]
        omega

/-- A non-empty `matchFirst` result is non-empty. -/
theorem matchFirst_pos (g : Game) (body : Body) (lockedPiece : Piece) :
    ∀ (slots : List BodyPiece) (l : List Piece),
      matchFirst g body lockedPiece slots = some l → 0 < l.length := by
  intro slots
  induction slots with
  | nil => intro l h; simp [matchFirst] at h
  | cons s rest ih =>
    intro l h
    simp only [matchFirst] at h
    cases hm : matchBodyPieceAtLockedPiece g body s lockedPiece with
    | none => rw [hm] at h; exact ih l h
    | some l0 =>
      rw [hm] at h
      dsimp only at h
      split at h
      · injection h with h2
        rw [← h2]
        assumption
      · exact ih l h

/-- Each successful body match in the catalog loop removes at least one
locked piece, so the locked count drops by at least the match count. -/
theorem matchBodies_length :
    ∀ (bodies : List Body) (g : Game) (piece : Piece) (g' : Game) (cnt : Nat),
      matchBodies g piece bodies = some (g', cnt) →
      g'.lockedPieces.length + cnt ≤ g.lockedPieces.length := by
  intro bodies
  induction bodies with
  | nil =>
    intro g piece g' cnt h
    simp only [matchBodies] at h
    injection h with h2
    injection h2 with h3 h4
    rw [← h3, ← h4]
    omega
  | cons body rest ih =>
    intro g piece g' cnt h
    simp only [matchBodies] at h
    cases hm : matchAtLockedPiece g body piece with
    | none => rw [hm] at h; exact ih g piece g' cnt h
    | some matched =>
      rw [hm] at h
      dsimp only at h
      cases hrm : removePieces { g with score := g.score + body.score }
          (matched.map Piece.pos) with
      | none => rw [hrm] at h; cases h
      | some g1 =>
        rw [hrm] at h
        dsimp only at h
        cases hrec : matchBodies g1 piece rest with
        | none => rw [hrec] at h; cases h
        | some p2 =>
          rw [hrec] at h
          dsimp only [Option.map] at h
          injection h with h2
          injection h2 with h3 h4
          have hlen1 := removePieces_length (matched.map Piece.pos)
            { g with score := g.score + body.score } g1 hrm
          have hpos : 0 < matched.length := matchFirst_pos g body piece _ matched hm
          have hlen2 := ih g1 piece p2.1 p2.2 hrec
          rw [← h3, ← h4]
          simp only [List.length_map] at hlen1
          omega

/-- One pass of the work queue drops the locked count by at least the
number of matches it scores. -/
theorem processQueue_length :
    ∀ (pieces : List Piece) (g : Game) (g' : Game) (cnt : Nat),
      processQueue g pieces = some (g', cnt) →
      g'.lockedPieces.length + cnt ≤ g.lockedPieces.length := by
  intro pieces
  induction pieces with
  | nil =>
    intro g g' cnt h
    simp only [processQueue] at h
    injection h with h2
    injection h2 with h3 h4
    rw [← h3, ← h4]
    omega
  | cons piece rest ih =>
    intro g g' cnt h
    simp only [processQueue] at h
    cases hm : matchBodies g piece allBodies with
    | none => rw [hm] at h; cases h
    | some p1 =>
      rw [hm] at h
      dsimp only at h
      cases hrec : processQueue p1.1 rest with
      | none => rw [hrec] at h; cases h
      | some p2 =>
        rw [hrec] at h
        dsimp only [Option.map] at h
        injection h with h2
        injection h2 with h3 h4
        have h1 := matchBodies_length allBodies g piece p1.1 p1.2 hm
        have h2 := ih p1.1 p2.1 p2.2 hrec
        rw [← h3, ← h4]
        omega

/-- With fuel exceeding the locked-piece count, the cascade resolver's
result no longer depends on the fuel: the recursion bottoms out first. -/
theorem joinAndScore_fuel :
    ∀ (k : Nat) (g : Game) (pieces : List Piece) (fuel1 fuel2 : Nat),
      g.lockedPieces.length ≤ k → k < fuel1 → k < fuel2 →
      joinAndScorePieces g pieces fuel1 = joinAndScorePieces g pieces fuel2 := by
  intro k
  induction k with
  | zero =>
    intro g pieces fuel1 fuel2 hk h1 h2
    obtain ⟨f1, rfl⟩ : ∃ f, fuel1 = f + 1 := ⟨fuel1 - 1, by omega⟩
    obtain ⟨f2, rfl⟩ : ∃ f, fuel2 = f + 1 := ⟨fuel2 - 1, by omega⟩
    simp only [joinAndScorePieces]
    cases hq : processQueue g pieces with
    | none => rfl
    | some p1 =>
      obtain ⟨g1, cnt⟩ := p1
      have hlen := processQueue_length pieces g g1 cnt hq
      dsimp only
      rw [if_neg (by omega), if_neg (by omega)]
  | succ k ih =>
    intro g pieces fuel1 fuel2 hk h1 h2
    obtain ⟨f1, rfl⟩ : ∃ f, fuel1 = f + 1 := ⟨fuel1 - 1, by omega⟩
    obtain ⟨f2, rfl⟩ : ∃ f, fuel2 = f + 1 := ⟨fuel2 - 1, by omega⟩
    simp only [joinAndScorePieces]
    cases hq : processQueue g pieces with
    | none => rfl
    | some p1 =>
      obtain ⟨g1, cnt⟩ := p1
      have hlen := processQueue_length pieces g g1 cnt hq
      dsimp only
      by_cases hcnt : 0 < cnt
      · rw [if_pos hcnt, if_pos hcnt]
        cases hc : compactGrid g1 with
        | none => rfl
        | some p2 =>
          obtain ⟨g2, fallen⟩ := p2
          have hlen2 := compactGrid_length hc
          dsimp only
          exact ih g2 fallen f1 f2 (by omega) (by omega) (by omega)
      · rw [if_neg hcnt, if_neg hcnt]

/-- C6: the cascade resolver terminates on every finite grid state.
(a) A queue pass strictly reduces the locked-piece count by at least its
match count, so a recursing pass (match count positive) strictly
shrinks the board; (b) compaction never changes the count; (c) hence
any fuel beyond the locked-piece count yields the same result — the
recursion depth is bounded by the finite number of locked pieces. -/
theorem joinAndScorePieces_terminates :
    (∀ (g : Game) (pieces : List Piece) (g' : Game) (cnt : Nat),
      processQueue g pieces = some (g', cnt) →
      g'.lockedPieces.length + cnt ≤ g.lockedPieces.length) ∧
    (∀ (g g' : Game) (fallen : List Piece), compactGrid g = some (g', fallen) →
      g'.lockedPieces.length = g.lockedPieces.length) ∧
    (∀ (g : Game) (pieces : List Piece) (fuel1 fuel2 : Nat),
      g.lockedPieces.length < fuel1 → g.lockedPieces.length < fuel2 →
      joinAndScorePieces g pieces fuel1 = joinAndScorePieces g pieces fuel2) :=
  ⟨fun g pieces g' cnt h => processQueue_length pieces g g' cnt h,
   fun _ _ _ h => compactGrid_length h,
   fun g pieces fuel1 fuel2 h1 h2 =>
     joinAndScore_fuel g.lockedPieces.length g pieces fuel1 fuel2 (le_refl _) h1 h2⟩

/-- Witness for C6 at a concrete input: on the empty board any positive
fuel gives the same cascade result. -/
theorem joinAndScorePieces_terminates_witness :
    joinAndScorePieces emptyGame [] 1 = joinAndScorePieces emptyGame [] 2 :=
  joinAndScorePieces_terminates.2.2 emptyGame [] 1 2 (by decide) (by decide)

/-- Rotating a square size is the identity. -/
theorem rotateSize_square {s : Size} (hsq : s.w = s.h) (r : Int) :
    rotateSize s r = s := by
  simp only [rotateSize]
  split
  · calc (⟨s.h, s.w⟩ : Size) = ⟨s.w, s.h⟩ := by rw [hsq]
      _ = s := rfl
  · rfl

/-- The drop-search loop of `compactGrid`: the result is at least the
start value, a move (strictly larger result) is justified by a
successful `canMove` at the result, and one more step down is always
refused. -/
theorem findDy_spec (g : Game) (piece : Piece) :
    ∀ (n : Nat) (dy : Int),
      (gridSize.h - 1 - (rotateSize piece.size piece.currentRotation).h
        - (piece.pos.y + dy)).toNat ≤ n →
      dy ≤ findDy g piece dy ∧
      canMove g piece 0 (findDy g piece dy + 1) = false ∧
      (dy < findDy g piece dy → canMove g piece 0 (findDy g piece dy) = true) := by
  intro n
  induction n with
  | zero =>
    intro dy hn
    rw [findDy]
    by_cases hc : canMove g piece 0 (dy + 1) = true
    · exfalso
      have hb := canMove_bounds hc
      rw [isWithinBounds_iff] at hb
      dsimp only at hb
      omega
    · rw [dif_neg hc]
      simp only [Bool.not_eq_true] at hc
      exact ⟨le_refl _, hc, by omega⟩
  | succ n ih =>
    intro dy hn
    rw [findDy]
    by_cases hc : canMove g piece 0 (dy + 1) = true
    · rw [dif_pos hc]
      have hb := canMove_bounds hc
      rw [isWithinBounds_iff] at hb
      dsimp only at hb
      obtain ⟨h1, h2, h3⟩ := ih (dy + 1) (by omega)
      refine ⟨by omega, h2, ?_⟩
      intro hlt
      by_cases heq : dy + 1 < findDy g piece (dy + 1)
      · exact h3 heq
      · have : findDy g piece (dy + 1) = dy + 1 := by omega
        rw [this]
        exact hc
    · rw [dif_neg hc]
      simp only [Bool.not_eq_true] at hc
      exact ⟨le_refl _, hc, by omega⟩

/-- Every locked piece has the catalog size 1×1 (`genericSize`,
main.go): the game creates its pieces exclusively from the catalog.
Because `Piece.isColliding` crosses the candidate's size with the
locked piece's, the crossed test coincides with the real overlap test
exactly when the two sizes agree — compaction relies on that. -/
def unitSized (g : Game) : Prop :=
  ∀ p ∈ g.lockedPieces, p.size = genericSize

/-- One moving iteration of the compaction loop: when the drop search
justifies a fall of `dy ≥ height`, the unlock/re-lock pair succeeds and
preserves the invariant and the unit sizes; the moved piece replaces
the original. -/
theorem compact_step (g : Game) (piece : Piece) (hInv : GridInv g) (hu : unitSized g)
    (hmem : piece ∈ g.lockedPieces)
    (hdy : (rotateSize piece.size piece.currentRotation).h ≤
      findDy g piece ((rotateSize piece.size piece.currentRotation).h - 1)) :
    ∃ g1 g2, unlockPiece g piece = some g1 ∧
      lockPiece g1 { piece with pos := ⟨piece.pos.x, piece.pos.y +
        findDy g piece ((rotateSize piece.size piece.currentRotation).h - 1)⟩ } = some g2 ∧
      GridInv g2 ∧ unitSized g2 ∧ g2.score = g.score ∧
      g2.lockedPieces = insertLocked (removeLocked g.lockedPieces piece)
        { piece with pos := ⟨piece.pos.x, piece.pos.y +
          findDy g piece ((rotateSize piece.size piece.currentRotation).h - 1)⟩ } ∧
      (∀ q, q ∈ g2.lockedPieces ↔
        q = { piece with pos := ⟨piece.pos.x, piece.pos.y +
          findDy g piece ((rotateSize piece.size piece.currentRotation).h - 1)⟩ } ∨
        (q ∈ g.lockedPieces ∧ q ≠ piece)) := by
  set piece' : Piece := { piece with pos := ⟨piece.pos.x, piece.pos.y +
    findDy g piece ((rotateSize piece.size piece.currentRotation).h - 1)⟩ } with hdefp
  obtain ⟨hpw, hph, hpsq⟩ := hInv.2.2.1 piece hmem
  have hpu : piece.size = genericSize := hu piece hmem
  have hrot := rotateSize_pos hpw hph piece.currentRotation
  have hrs : rotateSize piece.size piece.currentRotation = piece.size :=
    rotateSize_square hpsq piece.currentRotation
  obtain ⟨hge, hstop, hmove⟩ := findDy_spec g piece
    (gridSize.h - 1 - (rotateSize piece.size piece.currentRotation).h
      - (piece.pos.y + ((rotateSize piece.size piece.currentRotation).h - 1))).toNat
    ((rotateSize piece.size piece.currentRotation).h - 1) (le_refl _)
  have hcan : canMove g piece 0
      (findDy g piece ((rotateSize piece.size piece.currentRotation).h - 1)) = true :=
    hmove (by omega)
  have hnocol := canMove_noCollision hcan
  obtain ⟨g1, hunlock, hInv1, hlist1, hperm1, hscore1, hgrid1, hmem1⟩ := GridInv_unlock hInv hmem
  have hpw' : 0 < piece'.size.w := hpw
  have hph' : 0 < piece'.size.h := hph
  have hpsq' : piece'.size.w = piece'.size.h := hpsq
  have hdisj : ∀ q ∈ g1.lockedPieces, footDisjoint piece' q := by
    intro q hq
    have hqg := ((hmem1 q).mp hq).1
    obtain ⟨hqw, hqh, hqsq⟩ := hInv.2.2.1 q hqg
    have hqu : q.size = genericSize := hu q hqg
    have hqsz : q.size = rotateSize piece.size piece.currentRotation := by
      rw [hqu, hrs, hpu]
    have hcol := hnocol q hqg
    intro c hc
    have hcmoved : inRect piece'.pos (rotateSize piece.size piece.currentRotation) c := hc.1
    have hcq : inRect q.pos q.size c := by
      have h2 := hc.2
      unfold inFootprint at h2
      rw [rotateSize_square hqsq] at h2
      exact h2
    have hpx : piece'.pos.x = piece.pos.x := by rw [hdefp]
    have hpy : piece'.pos.y = piece.pos.y +
        findDy g piece ((rotateSize piece.size piece.currentRotation).h - 1) := by rw [hdefp]
    have hcmoved2 : inRect ⟨piece.pos.x + 0, piece.pos.y +
        findDy g piece ((rotateSize piece.size piece.currentRotation).h - 1)⟩
        (rotateSize piece.size piece.currentRotation) c := by
      obtain ⟨a1, a2, a3, a4⟩ := hcmoved
      refine ⟨?_, ?_, ?_, ?_⟩ <;> (dsimp only; omega)
    have hcmoved3 : inRect ⟨piece.pos.x + 0, piece.pos.y +
        findDy g piece ((rotateSize piece.size piece.currentRotation).h - 1)⟩
        q.size c := by
      rw [hqsz]
      exact hcmoved2
    have hcq2 : inRect q.pos (rotateSize piece.size piece.currentRotation) c := by
      rw [← hqsz]
      exact hcq
    have hcoltrue := (isColliding_iff_cells q
      ⟨piece.pos.x + 0, piece.pos.y +
        findDy g piece ((rotateSize piece.size piece.currentRotation).h - 1)⟩
      (rotateSize piece.size piece.currentRotation) hrot.1 hrot.2 hqw hqh).2
      ⟨c, hcmoved3, hcq2⟩
    rw [hcoltrue] at hcol
    cases hcol
  have hfresh : piece' ∉ g1.lockedPieces := by
    intro hin
    have hself := hdisj _ hin
    have hposfp : inFootprint piece' piece'.pos := pos_mem_footprint _ hpw' hph'
    exact hself _ ⟨hposfp, hposfp⟩
  obtain ⟨g2, hlock, hInv2, hlist2, -, hscore2, -, hmem2⟩ :=
    GridInv_lock hInv1 hpw' hph' hpsq' hdisj hfresh
  have hu2 : unitSized g2 := by
    intro q hq
    rcases (hmem2 q).mp hq with rfl | hq2
    · exact hpu
    · exact hu q ((hmem1 q).mp hq2).1
  refine ⟨g1, g2, hunlock, hlock, hInv2, hu2, by rw [hscore2, hscore1],
    by rw [hlist2, hlist1], ?_⟩
  intro q
  rw [hmem2 q]
  constructor
  · rintro (rfl | hq)
    · exact Or.inl rfl
    · exact Or.inr ((hmem1 q).mp hq)
  · rintro (rfl | hq)
    · exact Or.inl rfl
    · exact Or.inr ((hmem1 q).mpr hq)

/-- The compaction loop preserves the grid invariant and the unit
sizes. -/
theorem compactLoop_inv :
    ∀ (n : Nat) (g : Game) (fallen : List Piece) (g' : Game) (fallen' : List Piece),
      GridInv g → unitSized g → compactLoop g fallen n = some (g', fallen') →
      GridInv g' ∧ unitSized g' := by
  intro n
  induction n with
  | zero =>
    intro g fallen g' fallen' hInv hu h
    simp only [compactLoop] at h
    injection h with h2
    injection h2 with h3 h4
    rw [← h3]
    exact ⟨hInv, hu⟩
  | succ i ih =>
    intro g fallen g' fallen' hInv hu h
    simp only [compactLoop] at h
    cases hcell : g.lockedPieces[i]? with
    | none => rw [hcell] at h; cases h
    | some piece =>
      rw [hcell] at h
      dsimp only at h
      have hmem : piece ∈ g.lockedPieces := List.getElem?_mem hcell
      split at h
      · rename_i hdy
        obtain ⟨g1, g2, hun, hlk, hInv2, hu2, -, -, -⟩ := compact_step g piece hInv hu hmem hdy
        rw [hun] at h
        dsimp only at h
        rw [hlk] at h
        exact ih g2 _ g' fallen' hInv2 hu2 h
      · exact ih g fallen g' fallen' hInv hu h

/-- `compactGrid` preserves the grid invariant and the unit sizes. -/
theorem compactGrid_inv {g g' : Game} {fallen : List Piece}
    (hInv : GridInv g) (hu : unitSized g) (h : compactGrid g = some (g', fallen)) :
    GridInv g' ∧ unitSized g' :=
  compactLoop_inv g.lockedPieces.length g [] g' fallen hInv hu h

/-- `removePieces` preserves the grid invariant and the unit sizes. -/
theorem removePieces_inv :
    ∀ (posList : List Pos) (g g' : Game), GridInv g → unitSized g →
      removePieces g posList = some g' → GridInv g' ∧ unitSized g' := by
  intro posList
  induction posList with
  | nil =>
    intro g g' hInv hu h
    simp only [removePieces] at h
    injection h with h2
    rw [← h2]
    exact ⟨hInv, hu⟩
  | cons pos rest ih =>
    intro g g' hInv hu h
    simp only [removePieces] at h
    cases hcell : g.grid pos with
    | none => rw [hcell] at h; cases h
    | some piece =>
      rw [hcell] at h
      dsimp only at h
      obtain ⟨hmem, -⟩ := hInv.grid_some hcell
      obtain ⟨g1, hun, hInv1, -, -, -, -, hmem1⟩ := GridInv_unlock hInv hmem
      have hu1 : unitSized g1 := fun q hq => hu q ((hmem1 q).mp hq).1
      rw [hun] at h
      exact ih g1 g' hInv1 hu1 h

/-- The score field never figures in the grid invariant. -/
theorem gridInv_score (g : Game) (s : Int) :
    GridInv g → GridInv { g with score := s } := fun h => h

/-- The catalog loop of the resolver preserves the grid invariant and
the unit sizes. -/
theorem matchBodies_inv :
    ∀ (bodies : List Body) (g : Game) (piece : Piece) (g' : Game) (cnt : Nat),
      GridInv g → unitSized g → matchBodies g piece bodies = some (g', cnt) →
      GridInv g' ∧ unitSized g' := by
  intro bodies
  induction bodies with
  | nil =>
    intro g piece g' cnt hInv hu h
    simp only [matchBodies] at h
    injection h with h2
    injection h2 with h3 h4
    rw [← h3]
    exact ⟨hInv, hu⟩
  | cons body rest ih =>
    intro g piece g' cnt hInv hu h
    simp only [matchBodies] at h
    cases hm : matchAtLockedPiece g body piece with
    | none => rw [hm] at h; exact ih g piece g' cnt hInv hu h
    | some matched =>
      rw [hm] at h
      dsimp only at h
      cases hrm : removePieces { g with score := g.score + body.score }
          (matched.map Piece.pos) with
      | none => rw [hrm] at h; cases h
      | some g1 =>
        rw [hrm] at h
        dsimp only at h
        obtain ⟨hInv1, hu1⟩ :=
          removePieces_inv (matched.map Piece.pos) _ g1
            (gridInv_score g (g.score + body.score) hInv)
            (show unitSized { g with score := g.score + body.score } from
              fun q hq => hu q hq) hrm
        cases hrec : matchBodies g1 piece rest with
        | none => rw [hrec] at h; cases h
        | some p2 =>
          rw [hrec] at h
          dsimp only [Option.map] at h
          injection h with h2
          injection h2 with h3 h4
          rw [← h3]
          exact ih g1 piece p2.1 p2.2 hInv1 hu1 hrec

/-- The work-queue pass preserves the grid invariant and the unit
sizes. -/
theorem processQueue_inv :
    ∀ (pieces : List Piece) (g g' : Game) (cnt : Nat),
      GridInv g → unitSized g → processQueue g pieces = some (g', cnt) →
      GridInv g' ∧ unitSized g' := by
  intro pieces
  induction pieces with
  | nil =>
    intro g g' cnt hInv hu h
    simp only [processQueue] at h
    injection h with h2
    injection h2 with h3 h4
    rw [← h3]
    exact ⟨hInv, hu⟩
  | cons piece rest ih =>
    intro g g' cnt hInv hu h
    simp only [processQueue] at h
    cases hm : matchBodies g piece allBodies with
    | none => rw [hm] at h; cases h
    | some p1 =>
      rw [hm] at h
      dsimp only at h
      obtain ⟨hInv1, hu1⟩ := matchBodies_inv allBodies g piece p1.1 p1.2 hInv hu hm
      cases hrec : processQueue p1.1 rest with
      | none => rw [hrec] at h; cases h
      | some p2 =>
        rw [hrec] at h
        dsimp only [Option.map] at h
        injection h with h2
        injection h2 with h3 h4
        rw [← h3]
        exact ih p1.1 p2.1 p2.2 hInv1 hu1 hrec

/-- The cascade resolver preserves the grid invariant and the unit
sizes. -/
theorem joinAndScorePieces_inv :
    ∀ (fuel : Nat) (g : Game) (pieces : List Piece) (g' : Game),
      GridInv g → unitSized g → joinAndScorePieces g pieces fuel = some g' →
      GridInv g' ∧ unitSized g' := by
  intro fuel
  induction fuel with
  | zero =>
    intro g pieces g' hInv hu h
    simp only [joinAndScorePieces] at h
    cases h
  | succ fuel ih =>
    intro g pieces g' hInv hu h
    simp only [joinAndScorePieces] at h
    cases hq : processQueue g pieces with
    | none => rw [hq] at h; cases h
    | some p1 =>
      rw [hq] at h
      obtain ⟨g1, cnt⟩ := p1
      dsimp only at h
      obtain ⟨hInv1, hu1⟩ := processQueue_inv pieces g g1 cnt hInv hu hq
      split at h
      · cases hc : compactGrid g1 with
        | none => rw [hc] at h; cases h
        | some p2 =>
          rw [hc] at h
          obtain ⟨g2, fallen⟩ := p2
          dsimp only at h
          obtain ⟨hInv2, hu2⟩ := compactGrid_inv hInv1 hu1 hc
          exact ih g2 fallen g' hInv2 hu2 h
      · injection h with h2
        rw [← h2]
        exact ⟨hInv1, hu1⟩

/-- The bomb scan of `handleActivePieceLanded` preserves the grid
invariant. -/
theorem bombLoop_inv {g g' : Game} {below : Pos} {n : Nat} {i : Int}
    (hInv : GridInv g) (h : bombLoop g below n i = some g') : GridInv g' := by
  obtain ⟨g2, hrun, hInv2, -, -, -⟩ := bombLoop_spec below n i g hInv
  rw [hrun] at h
  injection h with h2
  rw [← h2]
  exact hInv2

/-- C4: every grid-mutating engine operation — `lockPiece` (under its
caller's guarantee that the piece is fresh, positively sized, square as
all catalog pieces are, and placed on free cells), `unlockPiece`,
`compactGrid`, `joinAndScorePieces` and the bomb removal scan —
preserves the grid invariant: every cell of a locked piece's rotated
footprint references that piece, cells covered by no footprint are
empty, and footprints never overlap.  The compaction-dependent
conjuncts additionally assume the catalog's unit sizes (`unitSized`,
the only sizes the game creates): `Piece.isColliding` crosses the
candidate's size with the locked piece's, so only for pieces of equal
size does a passing collision test guarantee disjoint footprints —
with mixed sizes the crossed test can let a larger piece fall through
a smaller one. -/
theorem engine_preserves_occupancy :
    (∀ (g g' : Game) (p : Piece), GridInv g →
      0 < p.size.w → 0 < p.size.h → p.size.w = p.size.h →
      (∀ q ∈ g.lockedPieces, footDisjoint p q) → p ∉ g.lockedPieces →
      lockPiece g p = some g' → GridInv g') ∧
    (∀ (g g' : Game) (p : Piece), GridInv g → unlockPiece g p = some g' → GridInv g') ∧
    (∀ (g g' : Game) (fallen : List Piece), GridInv g → unitSized g →
      compactGrid g = some (g', fallen) → GridInv g') ∧
    (∀ (fuel : Nat) (g : Game) (pieces : List Piece) (g' : Game), GridInv g → unitSized g →
      joinAndScorePieces g pieces fuel = some g' → GridInv g') ∧
    (∀ (g g' : Game) (below : Pos) (n : Nat) (i : Int), GridInv g →
      bombLoop g below n i = some g' → GridInv g') := by
  refine ⟨?_, ?_, fun g g' fallen hInv hu h => (compactGrid_inv hInv hu h).1,
    fun fuel g pieces g' hInv hu h => (joinAndScorePieces_inv fuel g pieces g' hInv hu h).1,
    fun g g' below n i hInv h => bombLoop_inv hInv h⟩
  · intro g g' p hInv hw hh hsq hdisj hfresh h
    obtain ⟨g2, heq, hInv2, -⟩ := GridInv_lock hInv hw hh hsq hdisj hfresh
    rw [heq] at h
    injection h with h2
    rw [← h2]
    exact hInv2
  · intro g g' p hInv h
    obtain ⟨hfound, -⟩ := unlockPiece_some h
    have hmem : p ∈ g.lockedPieces := List.getElem?_mem hfound
    obtain ⟨g2, heq, hInv2, -⟩ := GridInv_unlock hInv hmem
    rw [heq] at h
    injection h with h2
    rw [← h2]
    exact hInv2

/-- Witness for C4: locking a 1×1 Head into the empty game yields an
invariant state. -/
theorem engine_preserves_occupancy_witness :
    GridInv (changePieceInGrid
      { emptyGame with lockedPieces := insertLocked emptyGame.lockedPieces pieceC5a }
      pieceC5a true) :=
  engine_preserves_occupancy.1 emptyGame _ pieceC5a gridInv_emptyGame
    (by decide) (by decide) (by decide)
    (fun q hq => absurd hq (List.not_mem_nil q)) (List.not_mem_nil pieceC5a)
    (lockPiece_of_not_mem (List.not_mem_nil pieceC5a))

/-- The bounds part of the compaction check `canMove(piece, 0, height)`:
can the piece's footprint, shifted down by its own rotated height, stay
inside the playable region? -/
def shiftBoundsOk (p : Piece) : Bool :=
  isWithinBounds ⟨p.pos.x + 0, p.pos.y + (rotateSize p.size p.currentRotation).h⟩
    (rotateSize p.size p.currentRotation) ⟨1, 1⟩ ⟨gridSize.w - 1, gridSize.h - 1⟩

/-- `S` collides with `p`'s footprint shifted down by `p`'s rotated
height — the collision part of the compaction check. -/
def blocks (S p : Piece) : Bool :=
  S.isColliding ⟨p.pos.x + 0, p.pos.y + (rotateSize p.size p.currentRotation).h⟩
    (rotateSize p.size p.currentRotation)

/-- `p` is pinned by the walls or by a piece of the suffix `l.drop i`
(the already-compacted pieces, which never move again). -/
def settledAfter (l : List Piece) (i : Nat) (p : Piece) : Prop :=
  shiftBoundsOk p = false ∨ ∃ S ∈ l.drop i, blocks S p = true

/-- A failing `canMove` is a failing bounds test or a collision with
some locked piece. -/
theorem canMove_false_cases {g : Game} {p : Piece} {dx dy : Int}
    (h : canMove g p dx dy = false) :
    isWithinBounds ⟨p.pos.x + dx, p.pos.y + dy⟩ (rotateSize p.size p.currentRotation)
      ⟨1, 1⟩ ⟨gridSize.w - 1, gridSize.h - 1⟩ = false ∨
    ∃ S ∈ g.lockedPieces,
      S.isColliding ⟨p.pos.x + dx, p.pos.y + dy⟩
        (rotateSize p.size p.currentRotation) = true := by
  by_cases hb : isWithinBounds ⟨p.pos.x + dx, p.pos.y + dy⟩
      (rotateSize p.size p.currentRotation) ⟨1, 1⟩ ⟨gridSize.w - 1, gridSize.h - 1⟩ = true
  · right
    unfold canMove at h
    simp only [hb, Bool.not_true, Bool.false_eq_true, if_false] at h
    rw [List.all_eq_false] at h
    obtain ⟨S, hS, hcol⟩ := h
    refine ⟨S, hS, ?_⟩
    simpa using hcol
  · left
    rw [Bool.eq_false_iff]
    exact hb

/-- A failing bounds test or a collision with a locked piece makes
`canMove` fail. -/
theorem canMove_false_of {g : Game} {p : Piece} {dx dy : Int}
    (h : isWithinBounds ⟨p.pos.x + dx, p.pos.y + dy⟩ (rotateSize p.size p.currentRotation)
        ⟨1, 1⟩ ⟨gridSize.w - 1, gridSize.h - 1⟩ = false ∨
      ∃ S ∈ g.lockedPieces,
        S.isColliding ⟨p.pos.x + dx, p.pos.y + dy⟩
          (rotateSize p.size p.currentRotation) = true) :
    canMove g p dx dy = false := by
  unfold canMove
  rcases h with hb | ⟨S, hS, hcol⟩
  · simp only [hb, Bool.not_false, if_true]
  · by_cases hb : isWithinBounds ⟨p.pos.x + dx, p.pos.y + dy⟩
        (rotateSize p.size p.currentRotation) ⟨1, 1⟩ ⟨gridSize.w - 1, gridSize.h - 1⟩ = true
    · simp only [hb, Bool.not_true, Bool.false_eq_true, if_false]
      rw [List.all_eq_false]
      exact ⟨S, hS, by simp [hcol]⟩
    · simp only [Bool.eq_false_iff.mpr hb, Bool.not_false, if_true]

/-- `Piece.isColliding` unfolded to inequalities (the sizes crossed,
exactly as in the source). -/
theorem isColliding_iff (S : Piece) (pos : Pos) (sz : Size) :
    S.isColliding pos sz = true ↔
      pos.x < S.pos.x + sz.w ∧ S.pos.x < pos.x + S.size.w ∧
      pos.y < S.pos.y + sz.h ∧ S.pos.y < pos.y + S.size.h := by
  simp [Piece.isColliding, and_assoc]

/-- Cell-level footprint disjointness of square pieces gives rectangle
non-overlap. -/
theorem footDisjoint_arith {p S : Piece} (hd : footDisjoint p S)
    (hpw : 0 < p.size.w) (hph : 0 < p.size.h) (hpsq : p.size.w = p.size.h)
    (hSw : 0 < S.size.w) (hSh : 0 < S.size.h) (hSsq : S.size.w = S.size.h) :
    ¬(p.pos.x < S.pos.x + S.size.w ∧ S.pos.x < p.pos.x + p.size.w ∧
      p.pos.y < S.pos.y + S.size.h ∧ S.pos.y < p.pos.y + p.size.h) := by
  rintro ⟨h1, h2, h3, h4⟩
  obtain ⟨cx, hx1, hx2, hx3, hx4⟩ :=
    (interval_overlap_iff p.pos.x p.size.w S.pos.x S.size.w hpw hSw).1 ⟨h1, h2⟩
  obtain ⟨cy, hy1, hy2, hy3, hy4⟩ :=
    (interval_overlap_iff p.pos.y p.size.h S.pos.y S.size.h hph hSh).1 ⟨h3, h4⟩
  refine hd ⟨cx, cy⟩ ⟨?_, ?_⟩
  · unfold inFootprint
    rw [rotateSize_square hpsq]
    exact ⟨hx1, hx2, hy1, hy2⟩
  · unfold inFootprint
    rw [rotateSize_square hSsq]
    exact ⟨hx3, hx4, hy3, hy4⟩

/-- A piece colliding with another piece's footprint shifted down by at
least its height lies strictly lower than that piece (with the game's
unit sizes, under which the code's crossed overlap test is a real
overlap test). -/
theorem blocker_below {g : Game} (hu : unitSized g) {p S : Piece}
    (hp : p ∈ g.lockedPieces) (hS : S ∈ g.lockedPieces) {s : Int}
    (hs : (rotateSize p.size p.currentRotation).h ≤ s)
    (hcol : S.isColliding ⟨p.pos.x + 0, p.pos.y + s⟩
      (rotateSize p.size p.currentRotation) = true) :
    p.pos.y < S.pos.y ∧ S ≠ p := by
  have hpu : p.size = genericSize := hu p hp
  have hSu : S.size = genericSize := hu S hS
  have hrs : rotateSize p.size p.currentRotation = p.size :=
    rotateSize_square (by rw [hpu]; rfl) p.currentRotation
  rw [hrs] at hcol hs
  rw [isColliding_iff] at hcol
  dsimp only at hcol
  have hpw1 : p.size.w = 1 := by rw [hpu]; rfl
  have hph1 : p.size.h = 1 := by rw [hpu]; rfl
  have hSw1 : S.size.w = 1 := by rw [hSu]; rfl
  have hSh1 : S.size.h = 1 := by rw [hSu]; rfl
  obtain ⟨hc1, hc2, hc3, hc4⟩ := hcol
  refine ⟨by omega, ?_⟩
  rintro rfl
  omega

/-- A locked piece strictly below `l[k]` in a sorted invariant list
lies in the suffix after `k`. -/
theorem below_mem_drop {g : Game} (hInv : GridInv g) {k : Nat} {piece S : Piece}
    (hk : g.lockedPieces[k]? = some piece) (hS : S ∈ g.lockedPieces)
    (hy : piece.pos.y < S.pos.y) :
    S ∈ g.lockedPieces.drop (k + 1) := by
  have hklen : k < g.lockedPieces.length := by
    by_contra hc
    rw [List.getElem?_eq_none (by omega)] at hk
    cases hk
  have hget : g.lockedPieces[k] = piece := by
    rw [List.getElem?_eq_getElem hklen] at hk
    injection hk with h2
  obtain ⟨j, hj, hjS⟩ := List.mem_iff_getElem.mp hS
  have hjk : k < j := by
    by_contra hc
    push_neg at hc
    rcases Nat.lt_or_ge j k with hlt | hge
    · have hrel := List.pairwise_iff_getElem.mp hInv.1 j k hj hklen hlt
      rw [hget, hjS, keyLe_iff] at hrel
      omega
    · have heq : j = k := by omega
      subst heq
      rw [hget] at hjS
      rw [← hjS] at hy
      omega
  have hlen : j - (k + 1) < (g.lockedPieces.drop (k + 1)).length := by
    rw [List.length_drop]
    omega
  have hidx : k + 1 + (j - (k + 1)) = j := by omega
  have hgd : (g.lockedPieces.drop (k + 1))[j - (k + 1)] = S := by
    rw [List.getElem_drop]
    simp only [hidx]
    exact hjS
  rw [← hgd]
  exact List.getElem_mem _

/-- Under the invariant the binary search of `lockPiece`/`unlockPiece`
returns exactly the index at which a locked piece is stored. -/
theorem lockedIdx_of_getElem {g : Game} (hInv : GridInv g) {i : Nat} {p : Piece}
    (h : g.lockedPieces[i]? = some p) : lockedIdx g.lockedPieces p = i := by
  have hi : i < g.lockedPieces.length := by
    by_contra hc
    rw [List.getElem?_eq_none (by omega)] at h
    cases h
  have hmem : p ∈ g.lockedPieces := List.getElem?_mem h
  have hfind := hInv.find_member hmem
  have hlt : lockedIdx g.lockedPieces p < g.lockedPieces.length := by
    by_contra hc
    rw [List.getElem?_eq_none (by omega)] at hfind
    cases hfind
  apply List.getElem?_inj hlt hInv.2.1
  rw [hfind, h]

/-- The piece moved down by the compaction step is itself pinned: either
the shift by its own height leaves the playable bounds, or some locked
piece lying strictly below blocks that shift. -/
theorem moved_piece_settled {g : Game} (hInv : GridInv g) (hu : unitSized g) {piece : Piece}
    (hmem : piece ∈ g.lockedPieces)
    (hdy : (rotateSize piece.size piece.currentRotation).h ≤
      findDy g piece ((rotateSize piece.size piece.currentRotation).h - 1)) :
    shiftBoundsOk { piece with pos := ⟨piece.pos.x, piece.pos.y +
        findDy g piece ((rotateSize piece.size piece.currentRotation).h - 1)⟩ } = false ∨
    ∃ S ∈ g.lockedPieces, piece.pos.y < S.pos.y ∧
      blocks S { piece with pos := ⟨piece.pos.x, piece.pos.y +
        findDy g piece ((rotateSize piece.size piece.currentRotation).h - 1)⟩ } = true := by
  obtain ⟨hpw, hph, hpsq⟩ := hInv.2.2.1 piece hmem
  have hrot := rotateSize_pos hpw hph piece.currentRotation
  obtain ⟨hge, hstop, hmove⟩ := findDy_spec g piece
    (gridSize.h - 1 - (rotateSize piece.size piece.currentRotation).h
      - (piece.pos.y + ((rotateSize piece.size piece.currentRotation).h - 1))).toNat
    ((rotateSize piece.size piece.currentRotation).h - 1) (le_refl _)
  have hcan : canMove g piece 0
      (findDy g piece ((rotateSize piece.size piece.currentRotation).h - 1)) = true :=
    hmove (by omega)
  have hb := canMove_bounds hcan
  rw [isWithinBounds_iff] at hb
  dsimp only at hb
  obtain ⟨hb1, hb2, hb3, hb4⟩ := hb
  rcases canMove_false_cases hstop with hbf | ⟨S, hS, hcol⟩
  · left
    cases hsb : shiftBoundsOk { piece with pos := ⟨piece.pos.x, piece.pos.y +
        findDy g piece ((rotateSize piece.size piece.currentRotation).h - 1)⟩ } with
    | false => rfl
    | true =>
      exfalso
      unfold shiftBoundsOk at hsb
      rw [isWithinBounds_iff] at hsb
      dsimp only at hsb
      obtain ⟨ht1, ht2, ht3, ht4⟩ := hsb
      have hh2 := hrot.2
      have hbtrue : isWithinBounds ⟨piece.pos.x + 0, piece.pos.y +
          (findDy g piece ((rotateSize piece.size piece.currentRotation).h - 1) + 1)⟩
          (rotateSize piece.size piece.currentRotation) ⟨1, 1⟩
          ⟨gridSize.w - 1, gridSize.h - 1⟩ = true := by
        rw [isWithinBounds_iff]
        dsimp only
        refine ⟨?_, ?_, ?_, ?_⟩ <;> omega
      rw [hbtrue] at hbf
      cases hbf
  · right
    have hhle : (rotateSize piece.size piece.currentRotation).h ≤
        findDy g piece ((rotateSize piece.size piece.currentRotation).h - 1) + 1 := by omega
    obtain ⟨hyS, hSne⟩ := blocker_below hu hmem hS hhle hcol
    refine ⟨S, hS, hyS, ?_⟩
    have hpu : piece.size = genericSize := hu piece hmem
    have hSu : S.size = genericSize := hu S hS
    rw [isColliding_iff] at hcol
    dsimp only at hcol
    obtain ⟨hc1, hc2, hc3, hc4⟩ := hcol
    have hrw1 : (rotateSize piece.size piece.currentRotation).w = 1 := by
      rw [rotateSize_square (by rw [hpu]; rfl) piece.currentRotation, hpu]
      rfl
    have hrh1 : (rotateSize piece.size piece.currentRotation).h = 1 := by
      rw [rotateSize_square (by rw [hpu]; rfl) piece.currentRotation, hpu]
      rfl
    have hSw1 : S.size.w = 1 := by rw [hSu]; rfl
    have hSh1 : S.size.h = 1 := by rw [hSu]; rfl
    unfold blocks
    rw [isColliding_iff]
    dsimp only
    refine ⟨?_, ?_, ?_, ?_⟩ <;> omega

/-- Processing index `i` of the compaction loop keeps every piece of the
new suffix `drop i` pinned against the new list, when every piece of the
old suffix `drop (i+1)` was pinned against the old one. -/
theorem settled_step {g : Game} (hInv : GridInv g) (hu : unitSized g) {i : Nat} {piece : Piece}
    (hcell : g.lockedPieces[i]? = some piece)
    (hdy : (rotateSize piece.size piece.currentRotation).h ≤
      findDy g piece ((rotateSize piece.size piece.currentRotation).h - 1))
    (hset : ∀ q ∈ g.lockedPieces.drop (i + 1), settledAfter g.lockedPieces (i + 1) q) :
    ∀ q ∈ (insertLocked (removeLocked g.lockedPieces piece)
        { piece with pos := ⟨piece.pos.x, piece.pos.y +
          findDy g piece ((rotateSize piece.size piece.currentRotation).h - 1)⟩ }).drop i,
      settledAfter (insertLocked (removeLocked g.lockedPieces piece)
        { piece with pos := ⟨piece.pos.x, piece.pos.y +
          findDy g piece ((rotateSize piece.size piece.currentRotation).h - 1)⟩ }) i q := by
  set piece' : Piece := { piece with pos := ⟨piece.pos.x, piece.pos.y +
    findDy g piece ((rotateSize piece.size piece.currentRotation).h - 1)⟩ } with hpdef
  set r := removeLocked g.lockedPieces piece with hrdef
  set l2 := insertLocked r piece' with hl2def
  have hi : i < g.lockedPieces.length := by
    by_contra hc
    rw [List.getElem?_eq_none (by omega)] at hcell
    cases hcell
  have hmem : piece ∈ g.lockedPieces := List.getElem?_mem hcell
  obtain ⟨hpw, hph, hpsq⟩ := hInv.2.2.1 piece hmem
  have hrot := rotateSize_pos hpw hph piece.currentRotation
  have hidx : lockedIdx g.lockedPieces piece = i := lockedIdx_of_getElem hInv hcell
  have hr : r = g.lockedPieces.take i ++ g.lockedPieces.drop (i + 1) := by
    rw [hrdef]
    unfold removeLocked
    rw [hidx]
  have hrlen : r.length + 1 = g.lockedPieces.length := by
    rw [hrdef]
    exact removeLocked_length g.lockedPieces piece (hInv.find_member hmem)
  have hsortr : r.Pairwise (fun a b => keyLe a b = true) := by
    rw [hrdef]
    exact hInv.1.sublist (removeLocked_sublist g.lockedPieces piece)
  obtain ⟨hjle, hjpre, hjpost⟩ := lockedIdx_spec r piece' hsortr
  set j := lockedIdx r piece' with hjdef
  have hp'y : piece'.pos.y = piece.pos.y +
      findDy g piece ((rotateSize piece.size piece.currentRotation).h - 1) := rfl
  have hij : i ≤ j := by
    by_contra hc
    push_neg at hc
    have hjr : j < r.length := by omega
    have hjlen : j < g.lockedPieces.length := by omega
    have htrue := hjpost j hjr (le_refl _)
    have hgetopt : r[j]? = g.lockedPieces[j]? := by
      rw [hr, List.getElem?_append, if_pos (by rw [List.length_take]; omega),
        List.getElem?_take, if_pos hc]
    have hgetr : r[j] = g.lockedPieces[j] := by
      rw [List.getElem?_eq_getElem hjr, List.getElem?_eq_getElem hjlen] at hgetopt
      injection hgetopt
    have hgeti : g.lockedPieces[i] = piece := by
      have h3 := hcell
      rw [List.getElem?_eq_getElem hi] at h3
      injection h3
    have hkey := List.pairwise_iff_getElem.mp hInv.1 j i hjlen hi hc
    rw [hgeti] at hkey
    rw [hgetr] at htrue
    rw [keyLe_iff] at htrue hkey
    rw [hp'y] at htrue
    have hh := hrot.2
    omega
  have htakelen : (r.take j).length = j := by
    rw [List.length_take]
    omega
  have hE1 : l2.drop i = (r.take j).drop i ++ piece' :: r.drop j := by
    rw [hl2def]
    unfold insertLocked
    rw [← hjdef]
    rw [List.drop_append_of_le_length (by rw [htakelen]; exact hij)]
  have hE2 : r.drop i = (r.take j).drop i ++ r.drop j := by
    conv_lhs => rw [← List.take_append_drop j r]
    rw [List.drop_append_of_le_length (by rw [htakelen]; exact hij)]
  have hE3 : r.drop i = g.lockedPieces.drop (i + 1) := by
    rw [hr]
    exact List.drop_left' (by rw [List.length_take]; omega)
  have hdecomp : ∀ q, q ∈ l2.drop i ↔ q = piece' ∨ q ∈ g.lockedPieces.drop (i + 1) := by
    intro q
    rw [hE1, List.mem_append, List.mem_cons, ← hE3, hE2, List.mem_append]
    tauto
  intro q hq
  unfold settledAfter
  rcases (hdecomp q).mp hq with rfl | hqold
  · rcases moved_piece_settled hInv hu hmem hdy with hbf | ⟨S, hS, hyS, hblock⟩
    · exact Or.inl hbf
    · right
      have hSdrop : S ∈ g.lockedPieces.drop (i + 1) := below_mem_drop hInv hcell hS hyS
      exact ⟨S, (hdecomp S).mpr (Or.inr hSdrop), hblock⟩
  · have h2 := hset q hqold
    unfold settledAfter at h2
    rcases h2 with hbf | ⟨S, hS, hblock⟩
    · exact Or.inl hbf
    · exact Or.inr ⟨S, (hdecomp S).mpr (Or.inr hS), hblock⟩

/-- After the compaction loop has processed indices `n-1` down to `0`,
every remaining locked piece is pinned against the final list. -/
theorem compactLoop_settles :
    ∀ (n : Nat) (g : Game) (fallen : List Piece) (g' : Game) (fallen' : List Piece),
      GridInv g → unitSized g → n ≤ g.lockedPieces.length →
      (∀ q ∈ g.lockedPieces.drop n, settledAfter g.lockedPieces n q) →
      compactLoop g fallen n = some (g', fallen') →
      ∀ q ∈ g'.lockedPieces, settledAfter g'.lockedPieces 0 q := by
  intro n
  induction n with
  | zero =>
    intro g fallen g' fallen' hInv hu hle hset h
    simp only [compactLoop] at h
    injection h with h2
    injection h2 with h3 h4
    rw [← h3]
    intro q hq
    have h5 := hset q (by rw [List.drop_zero]; exact hq)
    exact h5
  | succ i ih =>
    intro g fallen g' fallen' hInv hu hle hset h
    simp only [compactLoop] at h
    cases hcell : g.lockedPieces[i]? with
    | none => rw [hcell] at h; cases h
    | some piece =>
      rw [hcell] at h
      dsimp only at h
      have hi : i < g.lockedPieces.length := by
        by_contra hc
        rw [List.getElem?_eq_none (by omega)] at hcell
        cases hcell
      have hmem : piece ∈ g.lockedPieces := List.getElem?_mem hcell
      split at h
      · rename_i hdy
        obtain ⟨g1, g2, hun, hlk, hInv2, hu2, -, hlist2, -⟩ :=
          compact_step g piece hInv hu hmem hdy
        rw [hun] at h
        dsimp only at h
        rw [hlk] at h
        have hlen1 := unlockPiece_length hun
        have hlen2 := lockPiece_length hlk
        have hset2 : ∀ q ∈ g2.lockedPieces.drop i, settledAfter g2.lockedPieces i q := by
          rw [hlist2]
          exact settled_step hInv hu hcell hdy hset
        exact ih g2 _ g' fallen' hInv2 hu2 (by omega) hset2 h
      · rename_i hndy
        obtain ⟨hpw, hph, hpsq⟩ := hInv.2.2.1 piece hmem
        have hrot := rotateSize_pos hpw hph piece.currentRotation
        obtain ⟨hge2, hstop2, -⟩ := findDy_spec g piece
          (gridSize.h - 1 - (rotateSize piece.size piece.currentRotation).h
            - (piece.pos.y + ((rotateSize piece.size piece.currentRotation).h - 1))).toNat
          ((rotateSize piece.size piece.currentRotation).h - 1) (le_refl _)
        have hstop' : canMove g piece 0
            ((rotateSize piece.size piece.currentRotation).h) = false := by
          have heq : (rotateSize piece.size piece.currentRotation).h =
              findDy g piece ((rotateSize piece.size piece.currentRotation).h - 1) + 1 := by
            omega
          rw [heq]
          exact hstop2
        have hsettle_piece : settledAfter g.lockedPieces i piece := by
          unfold settledAfter
          rcases canMove_false_cases hstop' with hbf | ⟨S, hS, hcol⟩
          · left
            unfold shiftBoundsOk
            exact hbf
          · right
            obtain ⟨hyS, -⟩ := blocker_below hu hmem hS (le_refl _) hcol
            have hSdrop : S ∈ g.lockedPieces.drop (i + 1) := below_mem_drop hInv hcell hS hyS
            refine ⟨S, ?_, ?_⟩
            · rw [List.drop_eq_getElem_cons hi]
              exact List.mem_cons_of_mem _ hSdrop
            · unfold blocks
              exact hcol
        have hset' : ∀ q ∈ g.lockedPieces.drop i, settledAfter g.lockedPieces i q := by
          intro q hq
          rw [List.drop_eq_getElem_cons hi] at hq
          rcases List.mem_cons.mp hq with heq2 | hq2
          · have hgeti : g.lockedPieces[i] = piece := by
              have h3 := hcell
              rw [List.getElem?_eq_getElem hi] at h3
              injection h3
            rw [heq2, hgeti]
            exact hsettle_piece
          · have h2 := hset q hq2
            unfold settledAfter at h2 ⊢
            rcases h2 with hbf | ⟨S, hS, hb⟩
            · exact Or.inl hbf
            · refine Or.inr ⟨S, ?_, hb⟩
              rw [List.drop_eq_getElem_cons hi]
              exact List.mem_cons_of_mem _ hS
        exact ih g fallen g' fallen' hInv hu (by omega) hset' h

/-- On a grid whose pieces are all pinned, the compaction loop moves
nothing and reports no fallen pieces. -/
theorem settled_loop :
    ∀ (m : Nat) (g : Game) (fallen : List Piece),
      GridInv g → m ≤ g.lockedPieces.length →
      (∀ q ∈ g.lockedPieces, settledAfter g.lockedPieces 0 q) →
      compactLoop g fallen m = some (g, fallen) := by
  intro m
  induction m with
  | zero =>
    intro g fallen _ _ _
    rfl
  | succ i ih =>
    intro g fallen hInv hle hset
    have hi : i < g.lockedPieces.length := hle
    simp only [compactLoop]
    cases hcell : g.lockedPieces[i]? with
    | none =>
      exfalso
      rw [List.getElem?_eq_getElem hi] at hcell
      cases hcell
    | some piece =>
      dsimp only
      have hmem : piece ∈ g.lockedPieces := List.getElem?_mem hcell
      obtain ⟨hpw, hph, hpsq⟩ := hInv.2.2.1 piece hmem
      have hrot := rotateSize_pos hpw hph piece.currentRotation
      have hsettled := hset piece hmem
      unfold settledAfter at hsettled
      have hstop' : canMove g piece 0
          ((rotateSize piece.size piece.currentRotation).h) = false := by
        apply canMove_false_of
        rcases hsettled with hbf | ⟨S, hS, hb⟩
        · left
          unfold shiftBoundsOk at hbf
          exact hbf
        · right
          refine ⟨S, ?_, ?_⟩
          · rw [List.drop_zero] at hS
            exact hS
          · unfold blocks at hb
            exact hb
      have hcond : ¬(canMove g piece 0
          ((rotateSize piece.size piece.currentRotation).h - 1 + 1) = true) := by
        have hc1 : (rotateSize piece.size piece.currentRotation).h - 1 + 1 =
            (rotateSize piece.size piece.currentRotation).h := by ring
        rw [hc1, hstop']
        simp
      have hfd : findDy g piece ((rotateSize piece.size piece.currentRotation).h - 1) =
          (rotateSize piece.size piece.currentRotation).h - 1 := by
        rw [findDy, dif_neg hcond]
      rw [hfd]
      rw [if_neg (by omega :
        ¬((rotateSize piece.size piece.currentRotation).h ≤
          (rotateSize piece.size piece.currentRotation).h - 1))]
      exact ih g fallen hInv (by omega) hset

/-- C7: for every grid state satisfying the grid invariant whose
pieces all carry the catalog's 1×1 size (the only sizes the game
creates — needed because the code's crossed collision test reports real
overlaps only between pieces of equal size), running `compactGrid`
twice in a row with no intervening `lockPiece` or `unlockPiece` returns
an empty list of fallen pieces on the second call (the second call also
leaves the state unchanged). -/
theorem compactGrid_idempotent {g g1 : Game} {fallen : List Piece}
    (hInv : GridInv g) (hu : unitSized g) (h : compactGrid g = some (g1, fallen)) :
    compactGrid g1 = some (g1, []) := by
  have hInv1 : GridInv g1 := (compactGrid_inv hInv hu h).1
  have hsettled : ∀ q ∈ g1.lockedPieces, settledAfter g1.lockedPieces 0 q := by
    refine compactLoop_settles g.lockedPieces.length g [] g1 fallen hInv hu (le_refl _) ?_ h
    intro q hq
    rw [List.drop_length] at hq
    cases hq
  unfold compactGrid
  exact settled_loop g1.lockedPieces.length g1 [] hInv1 (le_refl _) hsettled

/-- Witness for C7 at a concrete input: the empty grid. -/
theorem compactGrid_idempotent_witness :
    GridInv emptyGame ∧ unitSized emptyGame ∧
    compactGrid emptyGame = some (emptyGame, []) ∧
    compactGrid emptyGame = some (emptyGame, []) :=
  ⟨gridInv_emptyGame, fun p hp => absurd hp (List.not_mem_nil p), rfl,
    compactGrid_idempotent gridInv_emptyGame
      (fun p hp => absurd hp (List.not_mem_nil p)) rfl⟩
